import Mathlib

/-!
Shallow embedding of the Concept Activation Network core
(src/concept-network.js) and proofs about it.

Modelling conventions:
- JavaScript numbers are modelled as real numbers.
- A JavaScript `Map` is modelled as an insertion-ordered association
  list (`Map.set` overwrites in place for an existing key and appends
  for a new one; iteration follows insertion order).
- Fallible operations (`getConcept`, `addConcept`, `addConnection`)
  return `Except NetError`.
- `uuidv4()` generated pattern ids and history timestamps carry no
  algorithmic content and are omitted from the records they decorate.
- `Array.prototype.sort` (ES2019 and later, as run by Node) is a
  stable sort; a stable sort for a given comparator has a unique
  result, realised here by the stable insertion sort
  `stableSortDescBy`.
-/

noncomputable section

namespace CanMcp

/-- Sigmoid squashing function, from `ConceptNetwork.sigmoid`:
`1 / (1 + Math.exp(-x))`. -/
def sigmoid (x : ℝ) : ℝ := 1 / (1 + Real.exp (-x))

/-- A concept node, from `class ConceptNode`: id, label, category,
an insertion-ordered map of outgoing connections (target id to weight),
activation, previous activation and opaque metadata. -/
structure ConceptNode where
  id : String
  label : String
  category : Option String
  connections : List (String × ℝ)
  activation : ℝ
  prevActivation : ℝ
  metadata : List (String × String)

/-- `Map.get` on an association list. -/
def connGet (cs : List (String × ℝ)) (k : String) : Option ℝ :=
  (cs.find? (fun p => p.1 = k)).map Prod.snd

/-- `Map.set` on an association list: overwrite in place if the key is
present, append otherwise. -/
def connSet (cs : List (String × ℝ)) (k : String) (v : ℝ) : List (String × ℝ) :=
  if cs.any (fun p => p.1 = k) then
    cs.map (fun p => if p.1 = k then (k, v) else p)
  else
    cs ++ [(k, v)]

/-- `Map.delete` on an association list (the value part). -/
def connDel (cs : List (String × ℝ)) (k : String) : List (String × ℝ) :=
  cs.filter (fun p => p.1 ≠ k)

/-- `ConceptNode.addConnection`. -/
def ConceptNode.addConn (n : ConceptNode) (targetId : String) (weight : ℝ) : ConceptNode :=
  { n with connections := connSet n.connections targetId weight }

/-- `ConceptNode.removeConnection` (the state part of it). -/
def ConceptNode.removeConn (n : ConceptNode) (targetId : String) : ConceptNode :=
  { n with connections := connDel n.connections targetId }

/-- `ConceptNode.updateActivation`: previous activation becomes the
current activation, activation becomes the new value. -/
def ConceptNode.updateActivation (n : ConceptNode) (newValue : ℝ) : ConceptNode :=
  { n with prevActivation := n.activation, activation := newValue }

/-- `ConceptNode.getActivationDelta`. -/
def ConceptNode.activationDelta (n : ConceptNode) : ℝ :=
  |n.activation - n.prevActivation|

/-- Default parameters, from the `ConceptNetwork` constructor. -/
structure Params where
  activationThreshold : ℝ
  decayRate : ℝ
  maxIterations : ℕ
  convergenceThreshold : ℝ

def defaultParams : Params :=
  { activationThreshold := 0.7, decayRate := 0.1, maxIterations := 5,
    convergenceThreshold := 0.01 }

/-- One per-node entry of a recorded activation snapshot
(timestamp omitted). -/
structure SnapshotEntry where
  id : String
  label : String
  activation : ℝ
  category : Option String

/-- One entry of `activationHistory`. -/
structure HistoryEntry where
  iteration : ℕ
  activations : List SnapshotEntry

/-- The `ConceptNetwork` state: insertion-ordered node map, activation
history, iteration counter and parameters. -/
structure Network where
  nodes : List ConceptNode
  activationHistory : List HistoryEntry
  iterationCount : ℕ
  params : Params

/-- A fresh empty network, from the constructor. -/
def Network.empty : Network :=
  { nodes := [], activationHistory := [], iterationCount := 0, params := defaultParams }

inductive NetError
  | IdCollision
  | NotFound
deriving DecidableEq

/-- `this.nodes.has(id)`. -/
def Network.hasNode (g : Network) (i : String) : Bool :=
  g.nodes.any (fun n => n.id = i)

/-- `this.nodes.get(id)`. -/
def Network.getNode (g : Network) (i : String) : Option ConceptNode :=
  g.nodes.find? (fun n => n.id = i)

/-- Update every node carrying the given id (unique in any state built
through the API) with `f`, in place. -/
def Network.modifyNode (g : Network) (i : String) (f : ConceptNode → ConceptNode) : Network :=
  { g with nodes := g.nodes.map (fun n => if n.id = i then f n else n) }

/-- `ConceptNetwork.addConcept` with a caller-supplied id (when the id
is omitted the code draws a fresh uuid; the claims only concern
supplied ids). -/
def Network.addConcept (g : Network) (label : String) (category : Option String)
    (i : String) : Except NetError Network :=
  if g.hasNode i then
    .error .IdCollision
  else
    .ok { g with nodes := g.nodes ++
      [{ id := i, label := label, category := category, connections := [],
         activation := 0, prevActivation := 0, metadata := [] }] }

/-- `ConceptNetwork.removeConcept`: if absent return false; else remove
the connection to the id from every node, then delete the node. -/
def Network.removeConcept (g : Network) (i : String) : Bool × Network :=
  if g.hasNode i then
    (true, { g with nodes :=
      (g.nodes.map (fun n => n.removeConn i)).filter (fun n => n.id ≠ i) })
  else
    (false, g)

/-- `ConceptNetwork.addConnection`: clamp the weight into [0,1], fail
with NotFound if either endpoint is absent (`getConcept` throws), set
source to target, and if bidirectional also target to source. -/
def Network.addConnection (g : Network) (sourceId targetId : String) (weight : ℝ)
    (bidirectional : Bool) : Except NetError Network :=
  let safeWeight := max 0 (min 1 weight)
  if g.hasNode sourceId then
    if g.hasNode targetId then
      let g1 := g.modifyNode sourceId (fun n => n.addConn targetId safeWeight)
      .ok (if bidirectional then
            g1.modifyNode targetId (fun n => n.addConn sourceId safeWeight)
          else g1)
    else .error .NotFound
  else .error .NotFound

/-- `ConceptNetwork.getNetworkSize`: concept count and total directed
connection count. -/
def Network.getNetworkSize (g : Network) : ℕ × ℕ :=
  (g.nodes.length, (g.nodes.map (fun n => n.connections.length)).sum)

/-- `ConceptNetwork.recordActivationState` (timestamp omitted). -/
def Network.recordActivationState (g : Network) : Network :=
  { g with
    activationHistory := g.activationHistory ++
      [{ iteration := g.iterationCount,
         activations := g.nodes.map (fun n =>
           { id := n.id, label := n.label, activation := n.activation,
             category := n.category }) }],
    iterationCount := g.iterationCount + 1 }

/-- The selection argument of `setInitialActivation`: either an array
of ids (uniform value) or a mapping of id to per-id value. -/
inductive Selection
  | uniformList (ids : List String)
  | mapping (pairs : List (String × ℝ))

/-- `ConceptNetwork.setInitialActivation`: reset every node through
`updateActivation(0.0)`, seed the selected present ids through
`updateActivation`, silently skip absent ids, clear the history, reset
the counter and record round 0. -/
def Network.setInitialActivation (g : Network) (concepts : Selection)
    (activationValue : ℝ) : Network :=
  let g1 : Network := { g with nodes := g.nodes.map (fun n => n.updateActivation 0) }
  let g2 : Network :=
    match concepts with
    | .uniformList ids =>
        ids.foldl (fun acc i =>
          if acc.hasNode i then
            acc.modifyNode i (fun n => n.updateActivation activationValue)
          else acc) g1
    | .mapping pairs =>
        pairs.foldl (fun acc p =>
          if acc.hasNode p.1 then
            acc.modifyNode p.1 (fun n => n.updateActivation p.2)
          else acc) g1
  Network.recordActivationState
    { g2 with activationHistory := [], iterationCount := 0 }

/-- The incoming sum of `spreadActivation` for one node: over the
node's own outgoing connections whose target exists, pre-round
activation of the target times the edge weight. -/
def Network.incomingFor (g : Network) (n : ConceptNode) : ℝ :=
  (n.connections.map (fun p =>
    match g.getNode p.1 with
    | some m => m.activation * p.2
    | none => 0)).sum

/-- The new activation `spreadActivation` computes for one node from
the pre-round state: sigmoid of decayed own activation plus the
incoming sum. -/
def Network.nextActivation (g : Network) (d : ℝ) (n : ConceptNode) : ℝ :=
  sigmoid (n.activation * (1 - d) + g.incomingFor n)

structure SpreadResult where
  iteration : ℕ
  totalDelta : ℝ

/-- The body of `ConceptNetwork.spreadActivation` after the decay rate
has been resolved: compute all new activations from the pre-round
state, commit them all through `updateActivation`, total the absolute
per-node deltas, record the state. -/
def Network.spreadStep (g : Network) (d : ℝ) : Network × SpreadResult :=
  let g1 : Network :=
    { g with nodes := g.nodes.map (fun n => n.updateActivation (g.nextActivation d n)) }
  let totalDelta := (g1.nodes.map ConceptNode.activationDelta).sum
  let g2 := g1.recordActivationState
  (g2, { iteration := g2.iterationCount - 1, totalDelta := totalDelta })

/-- `ConceptNetwork.spreadActivation(decayRate)`: the argument defaults
to the configured decay rate only when it is null
(`decayRate !== null ? decayRate : this.params.decayRate`). -/
def Network.spreadActivation (g : Network) (decayRate : Option ℝ) : Network × SpreadResult :=
  g.spreadStep (decayRate.getD g.params.decayRate)

/-- JavaScript `options.x || defaultValue` on a number: a missing value
and the number 0 are both falsy, so both fall back to the default. -/
def jsOrReal (v : Option ℝ) (dflt : ℝ) : ℝ :=
  match v with
  | none => dflt
  | some x => if x = 0 then dflt else x

/-- JavaScript `options.x || defaultValue` on a nonnegative integer. -/
def jsOrNat (v : Option ℕ) (dflt : ℕ) : ℕ :=
  match v with
  | none => dflt
  | some x => if x = 0 then dflt else x

/-- The options record of `runUntilConvergence`. -/
structure RunOptions where
  maxIterations : Option ℕ
  convergenceThreshold : Option ℝ
  decayRate : Option ℝ

/-- The result of `runUntilConvergence`. `finalDelta = none` models the
initial JavaScript value `Infinity` (returned only when the loop never
ran, that is when the effective iteration cap is 0). -/
structure RunResult where
  converged : Bool
  iterations : ℕ
  finalDelta : Option ℝ

/-- The loop guard `totalDelta > convergenceThreshold`, where the delta
starts out as Infinity. -/
def deltaAbove (delta : Option ℝ) (thr : ℝ) : Bool :=
  match delta with
  | none => true
  | some x => decide (thr < x)

/-- The convergence test `totalDelta <= convergenceThreshold` on the
final delta (false for the initial Infinity). -/
def deltaLE (delta : Option ℝ) (thr : ℝ) : Bool :=
  match delta with
  | none => false
  | some x => decide (x ≤ thr)

/-- The while loop of `runUntilConvergence`; the fuel is the number of
iterations still allowed by the cap (`maxIterations - iteration`). -/
def Network.runLoop (d thr : ℝ) : ℕ → Network → ℕ → Option ℝ → Network × ℕ × Option ℝ
  | 0, g, iter, delta => (g, iter, delta)
  | fuel + 1, g, iter, delta =>
      if deltaAbove delta thr then
        let r := g.spreadStep d
        Network.runLoop d thr fuel r.1 (iter + 1) (some r.2.totalDelta)
      else (g, iter, delta)

/-- `ConceptNetwork.runUntilConvergence`: merge the options with the
configured defaults through JavaScript falsy-or, run the loop, report
convergence of the final delta. -/
def Network.runUntilConvergence (g : Network) (opts : RunOptions) : Network × RunResult :=
  let maxIter := jsOrNat opts.maxIterations g.params.maxIterations
  let thr := jsOrReal opts.convergenceThreshold g.params.convergenceThreshold
  let d := jsOrReal opts.decayRate g.params.decayRate
  let r := Network.runLoop d thr maxIter g 0 none
  (r.1, { converged := deltaLE r.2.2 thr, iterations := r.2.1, finalDelta := r.2.2 })

/-- The record shape returned per concept by the analysis operations. -/
structure TopEntry where
  id : String
  label : String
  activation : ℝ
  category : Option String

/-- Stable insertion step for a descending sort by a real-valued key:
an element goes in front of the first already-placed element whose key
is not larger. -/
def insertDescBy {α : Type} (key : α → ℝ) (a : α) : List α → List α
  | [] => [a]
  | b :: bs => if decide (key b ≤ key a) then a :: b :: bs else b :: insertDescBy key a bs

/-- The unique stable descending sort by a real-valued key, realising
the stable `Array.prototype.sort` with comparator `b.key - a.key`:
elements with equal keys keep their relative order. -/
def stableSortDescBy {α : Type} (key : α → ℝ) (l : List α) : List α :=
  l.foldr (insertDescBy key) []

def ConceptNode.toEntry (n : ConceptNode) : TopEntry :=
  { id := n.id, label := n.label, activation := n.activation, category := n.category }

/-- `ConceptNetwork.getTopActivatedConcepts(limit, threshold)`: filter
nodes with activation at least the threshold (defaulting to the
configured activationThreshold only when null), stable-sort descending
by activation, truncate to the limit. -/
def Network.getTopActivatedConcepts (g : Network) (limit : ℕ) (threshold : Option ℝ) :
    List TopEntry :=
  let actualThreshold := threshold.getD g.params.activationThreshold
  ((stableSortDescBy ConceptNode.activation
      (g.nodes.filter (fun n => decide (actualThreshold ≤ n.activation)))).take limit).map
    ConceptNode.toEntry

/-- The filtered list of active nodes of `identifyEmergentPatterns`,
in graph insertion order. -/
def Network.activeNodes (g : Network) (thr : ℝ) : List ConceptNode :=
  g.nodes.filter (fun n => decide (thr ≤ n.activation))

/-- An emergent pattern (the uuid label is omitted). -/
structure Pattern where
  concepts : List TopEntry
  averageActivation : ℝ

/-- The breadth-first loop of `identifyEmergentPatterns`: pop an id;
skip it if visited; otherwise mark it visited, and when it names an
active node, append the node to the pattern and push its unvisited,
existing, active connection targets.  The queue only ever holds ids of
existing nodes, so the `none` branch of the lookup is unreachable; the
fuel passed by `identifyEmergentPatterns` is large enough that the
queue always empties before it runs out. -/
def Network.bfs (g : Network) (thr : ℝ) :
    ℕ → List String → List String → List TopEntry → List String × List TopEntry
  | 0, _, visited, pat => (visited, pat)
  | _ + 1, [], visited, pat => (visited, pat)
  | fuel + 1, currentId :: rest, visited, pat =>
      if currentId ∈ visited then g.bfs thr fuel rest visited pat
      else
        let visited1 := currentId :: visited
        match g.getNode currentId with
        | none => g.bfs thr fuel rest visited1 pat
        | some cn =>
            if decide (thr ≤ cn.activation) then
              let pushes := cn.connections.filterMap (fun p =>
                if p.1 ∈ visited1 then none
                else
                  match g.getNode p.1 with
                  | none => none
                  | some m => if decide (thr ≤ m.activation) then some p.1 else none)
              g.bfs thr fuel (rest ++ pushes) visited1 (pat ++ [cn.toEntry])
            else g.bfs thr fuel rest visited1 pat

def mkPattern (pat : List TopEntry) : Pattern :=
  { concepts := pat,
    averageActivation := (pat.map TopEntry.activation).sum / pat.length }

/-- The outer loop of `identifyEmergentPatterns` over the active nodes,
threading the shared visited set; each unvisited seed starts one
breadth-first search and the nonempty result becomes one pattern. -/
def Network.patternsLoop (g : Network) (thr : ℝ) (fuel : ℕ) :
    List ConceptNode → List String → List Pattern → List Pattern
  | [], _, patterns => patterns
  | n :: ns, visited, patterns =>
      if n.id ∈ visited then g.patternsLoop thr fuel ns visited patterns
      else
        let r := g.bfs thr fuel [n.id] visited []
        g.patternsLoop thr fuel ns r.1
          (if 0 < r.2.length then patterns ++ [mkPattern r.2] else patterns)

/-- Fuel that always suffices for one breadth-first search: one more
than the number of queue insertions that can ever happen (the single
seed plus at most one push per connection entry of the graph). -/
def Network.bfsFuel (g : Network) : ℕ :=
  (g.nodes.map (fun n => n.connections.length)).sum + g.nodes.length + 1

/-- `ConceptNetwork.identifyEmergentPatterns(threshold)`: cluster the
active nodes by breadth-first traversal over active-to-active outgoing
edges, then stable-sort the patterns descending by average
activation. -/
def Network.identifyEmergentPatterns (g : Network) (threshold : Option ℝ) : List Pattern :=
  let actualThreshold := threshold.getD g.params.activationThreshold
  stableSortDescBy Pattern.averageActivation
    (g.patternsLoop actualThreshold g.bfsFuel (g.activeNodes actualThreshold) [] [])

structure Summary where
  iterationCount : ℕ
  topActivatedConcepts : List TopEntry
  emergentPatterns : List Pattern
  networkSize : ℕ × ℕ

/-- `ConceptNetwork.generateSummary`: aggregation of the top five
concepts, all emergent patterns at the default threshold, the counter
and the size. -/
def Network.generateSummary (g : Network) : Summary :=
  { iterationCount := g.iterationCount,
    topActivatedConcepts := g.getTopActivatedConcepts 5 none,
    emergentPatterns := g.identifyEmergentPatterns none,
    networkSize := g.getNetworkSize }

/-!
State-threaded forms of the four analysis operations.  The JavaScript
methods read `this` and assign none of its fields, so their faithful
state transformer returns the result next to the state the method body
leaves behind, which is the input state itself.
-/

def Network.getTopActivatedConceptsM (g : Network) (limit : ℕ) (threshold : Option ℝ) :
    List TopEntry × Network :=
  (g.getTopActivatedConcepts limit threshold, g)

def Network.identifyEmergentPatternsM (g : Network) (threshold : Option ℝ) :
    List Pattern × Network :=
  (g.identifyEmergentPatterns threshold, g)

def Network.getNetworkSizeM (g : Network) : (ℕ × ℕ) × Network :=
  (g.getNetworkSize, g)

def Network.generateSummaryM (g : Network) : Summary × Network :=
  (g.generateSummary, g)

/-! Helper lemmas about the embedding. -/

theorem sigmoid_pos (x : ℝ) : 0 < sigmoid x := by
  unfold sigmoid
  positivity

theorem sigmoid_lt_one (x : ℝ) : sigmoid x < 1 := by
  unfold sigmoid
  rw [div_lt_one (by positivity)]
  linarith [Real.exp_pos (-x)]

theorem sigmoid_strictMono : StrictMono sigmoid := by
  intro a b hab
  unfold sigmoid
  apply one_div_lt_one_div_of_lt (by positivity)
  have := Real.exp_lt_exp.mpr (neg_lt_neg hab)
  linarith

@[simp] theorem updateActivation_id (n : ConceptNode) (v : ℝ) :
    (n.updateActivation v).id = n.id := rfl

@[simp] theorem addConn_id (n : ConceptNode) (t : String) (w : ℝ) :
    (n.addConn t w).id = n.id := rfl

@[simp] theorem removeConn_id (n : ConceptNode) (t : String) :
    (n.removeConn t).id = n.id := rfl

theorem connGet_connDel (cs : List (String × ℝ)) (k : String) :
    connGet (connDel cs k) k = none := by
  induction cs with
  | nil => rfl
  | cons p ps ih =>
      by_cases h : p.1 = k
      · have e : connDel (p :: ps) k = connDel ps k := by
          simp [connDel, List.filter_cons, h]
        rw [e]; exact ih
      · have e : connDel (p :: ps) k = p :: connDel ps k := by
          simp [connDel, List.filter_cons, h]
        rw [e]
        unfold connGet at ih ⊢
        rw [List.find?_cons_of_neg _ (by simp [h])]
        exact ih

theorem connGet_connSet_self (cs : List (String × ℝ)) (k : String) (v : ℝ) :
    connGet (connSet cs k v) k = some v := by
  unfold connSet
  by_cases h : cs.any (fun p => p.1 = k) = true
  · simp only [h, if_true]
    induction cs with
    | nil => simp at h
    | cons p ps ih =>
        by_cases hp : p.1 = k
        · simp [connGet, hp]
        · rcases List.any_eq_true.mp h with ⟨q, hq, hqk⟩
          rcases List.mem_cons.mp hq with rfl | hq2
          · simp at hqk; exact absurd hqk hp
          · have hany : ps.any (fun p => p.1 = k) = true :=
              List.any_eq_true.mpr ⟨q, hq2, hqk⟩
            simpa [connGet, hp] using ih hany
  · simp only [h]
    induction cs with
    | nil => simp [connGet]
    | cons p ps ih =>
        have hp : ¬ p.1 = k := by
          intro hk
          exact h (List.any_eq_true.mpr ⟨p, List.mem_cons_self p ps, by simpa using hk⟩)
        have hps : ¬ ps.any (fun p => p.1 = k) = true := by
          intro hk
          rcases List.any_eq_true.mp hk with ⟨q, hq, hqk⟩
          exact h (List.any_eq_true.mpr ⟨q, List.mem_cons_of_mem p hq, hqk⟩)
        simp only [List.cons_append]
        simpa [connGet, hp] using ih hps

theorem getNode_eq_some (g : Network) (i : String) (n : ConceptNode)
    (h : g.getNode i = some n) : n ∈ g.nodes ∧ n.id = i := by
  refine ⟨List.mem_of_find?_eq_some h, ?_⟩
  have := List.find?_some h
  simpa using this

theorem hasNode_iff (g : Network) (i : String) :
    g.hasNode i = true ↔ ∃ n ∈ g.nodes, n.id = i := by
  unfold Network.hasNode
  rw [List.any_eq_true]
  constructor
  · rintro ⟨n, hn, hid⟩; exact ⟨n, hn, of_decide_eq_true hid⟩
  · rintro ⟨n, hn, hid⟩; exact ⟨n, hn, decide_eq_true hid⟩

theorem hasNode_getNode (g : Network) (i : String) (h : g.hasNode i = true) :
    ∃ n, g.getNode i = some n := by
  rcases (hasNode_iff g i).mp h with ⟨n, hn, hid⟩
  have : (g.nodes.find? (fun m => m.id = i)).isSome := by
    rw [List.find?_isSome]
    exact ⟨n, hn, by simpa using hid⟩
  rcases Option.isSome_iff_exists.mp this with ⟨m, hm⟩
  exact ⟨m, hm⟩

theorem getNode_modifyNode (g : Network) (i j : String) (f : ConceptNode → ConceptNode)
    (hf : ∀ n, (f n).id = n.id) :
    (g.modifyNode i f).getNode j =
      (g.getNode j).map (fun n => if n.id = i then f n else n) := by
  unfold Network.modifyNode Network.getNode
  simp only [List.find?_map]
  have hp : ((fun n : ConceptNode => decide (n.id = j)) ∘ fun n => if n.id = i then f n else n)
      = (fun n : ConceptNode => decide (n.id = j)) := by
    funext n
    by_cases h : n.id = i <;> simp [h, hf]
  rw [hp]

/-! Scenario 1 of the spec: concepts A and B, bidirectional connection
of weight 0.8, seeded A = 1.0 and B = 0.0. -/

def node1A : ConceptNode :=
  { id := "A", label := "Concept A", category := none,
    connections := [("B", 0.8)], activation := 1, prevActivation := 0, metadata := [] }

def node1B : ConceptNode :=
  { id := "B", label := "Concept B", category := none,
    connections := [("A", 0.8)], activation := 0, prevActivation := 0, metadata := [] }

def scenario1Net : Network :=
  { nodes := [node1A, node1B],
    activationHistory :=
      [{ iteration := 0, activations :=
          [{ id := "A", label := "Concept A", activation := 1, category := none },
           { id := "B", label := "Concept B", activation := 0, category := none }] }],
    iterationCount := 1, params := defaultParams }

/-- `scenario1Net` really is the state the API calls of scenario 1
produce on a fresh network. -/
theorem scenario1Net_provenance :
    (Network.empty.addConcept "Concept A" none "A").bind (fun g1 =>
      (g1.addConcept "Concept B" none "B").bind (fun g2 =>
        (g2.addConnection "A" "B" 0.8 true).map (fun g3 =>
          g3.setInitialActivation (.uniformList ["A"]) 1))) = .ok scenario1Net := by
  have h08 : max (0 : ℝ) (min 1 0.8) = 0.8 := by norm_num
  simp [Network.empty, Network.addConcept, Network.addConnection, Network.hasNode,
    Network.modifyNode, ConceptNode.addConn, connSet, Network.setInitialActivation,
    Network.recordActivationState, ConceptNode.updateActivation, Except.bind, Except.map,
    scenario1Net, node1A, node1B, defaultParams, h08]

/-- C1: one call to `spreadActivation(d)` replaces the node vector as a
whole: every node n becomes
`sigmoid(activation(n) * (1 - d) + Σ activation(target) * weight)` over
the targets of the node's own outgoing edges that exist in the graph,
with every term read from the pre-round state g, and previousActivation
committed to the pre-round activation; on scenario 1 one round with
decay rate 0.1 yields A = sigmoid(0.9) and B = sigmoid(0.8). -/
theorem spreadActivation_spec :
    (∀ (g : Network) (d : ℝ),
      ((g.spreadActivation (some d)).1).nodes =
        g.nodes.map (fun n =>
          { n with
            prevActivation := n.activation,
            activation := sigmoid (n.activation * (1 - d) +
              (n.connections.map (fun p =>
                match g.getNode p.1 with
                | some m => m.activation * p.2
                | none => 0)).sum) })) ∧
    ((scenario1Net.spreadActivation (some 0.1)).1.getNode "A").map ConceptNode.activation
      = some (sigmoid 0.9) ∧
    ((scenario1Net.spreadActivation (some 0.1)).1.getNode "B").map ConceptNode.activation
      = some (sigmoid 0.8) ∧
    ((scenario1Net.spreadActivation (some 0.1)).1.getNode "A").map ConceptNode.prevActivation
      = some 1 ∧
    ((scenario1Net.spreadActivation (some 0.1)).1.getNode "B").map ConceptNode.prevActivation
      = some 0 := by
  refine ⟨fun g d => rfl, ?_, ?_, ?_, ?_⟩ <;>
    (simp [Network.spreadActivation, Network.spreadStep, Network.recordActivationState,
        Network.getNode, Network.nextActivation, Network.incomingFor,
        ConceptNode.updateActivation, scenario1Net, node1A, node1B] <;> norm_num)

/-- C5: after any single `spreadActivation`, every node's activation is
a sigmoid value of a real input and hence lies strictly within (0,1),
for every graph and every pre-round activation vector. -/
theorem spreadActivation_bounded (g : Network) (d : Option ℝ) :
    ∀ n ∈ (g.spreadActivation d).1.nodes, 0 < n.activation ∧ n.activation < 1 := by
  intro n hn
  have e : (g.spreadActivation d).1.nodes =
      g.nodes.map (fun m => m.updateActivation
        (g.nextActivation (d.getD g.params.decayRate) m)) := rfl
  rw [e] at hn
  rcases List.mem_map.mp hn with ⟨m, _, rfl⟩
  exact ⟨sigmoid_pos _, sigmoid_lt_one _⟩

/-- Witness for C5 at scenario 1 with decay rate 0.1. -/
theorem spreadActivation_bounded_witness :
    0 < (node1A.updateActivation (scenario1Net.nextActivation 0.1 node1A)).activation ∧
    (node1A.updateActivation (scenario1Net.nextActivation 0.1 node1A)).activation < 1 :=
  spreadActivation_bounded scenario1Net (some 0.1)
    (node1A.updateActivation (scenario1Net.nextActivation 0.1 node1A))
    (List.mem_map_of_mem _ (by simp [scenario1Net]))

/-- C10: the analysis operations `getTopActivatedConcepts`,
`identifyEmergentPatterns`, `getNetworkSize` and `generateSummary`
assign no field of the network state: the state each one leaves behind
is exactly the input state, so every node's activation,
previousActivation, connections and metadata, the history and the
iteration counter are unchanged. -/
theorem analysis_ops_readonly (g : Network) (limit : ℕ) (thr1 thr2 : Option ℝ) :
    (g.getTopActivatedConceptsM limit thr1).2 = g ∧
    (g.identifyEmergentPatternsM thr2).2 = g ∧
    g.getNetworkSizeM.2 = g ∧
    g.generateSummaryM.2 = g ∧
    (g.generateSummaryM.2.nodes = g.nodes ∧
     g.generateSummaryM.2.activationHistory = g.activationHistory ∧
     g.generateSummaryM.2.iterationCount = g.iterationCount) :=
  ⟨rfl, rfl, rfl, rfl, rfl, rfl, rfl⟩

/-- C6: `removeConcept(x)` returns false and leaves the state unchanged
when x is absent; otherwise it returns true, keeps exactly the other
nodes with their outgoing edge to x removed, and afterwards no
remaining node's outgoing-edge set contains x as a target. -/
theorem removeConcept_spec (g : Network) (x : String) :
    (g.hasNode x = false → g.removeConcept x = (false, g)) ∧
    (g.hasNode x = true →
      (g.removeConcept x).1 = true ∧
      (g.removeConcept x).2.nodes =
        (g.nodes.filter (fun n => n.id ≠ x)).map (fun n => n.removeConn x) ∧
      (∀ n ∈ (g.removeConcept x).2.nodes, n.id ≠ x ∧ connGet n.connections x = none) ∧
      (g.removeConcept x).2.activationHistory = g.activationHistory ∧
      (g.removeConcept x).2.iterationCount = g.iterationCount) := by
  constructor
  · intro h
    simp [Network.removeConcept, h]
  · intro h
    refine ⟨by simp [Network.removeConcept, h], ?_, ?_, by simp [Network.removeConcept, h],
      by simp [Network.removeConcept, h]⟩
    · simp only [Network.removeConcept, h, if_true]
      rw [List.filter_map]
      rfl
    · intro n hn
      simp only [Network.removeConcept, h, if_true] at hn
      rcases List.mem_filter.mp hn with ⟨hn1, hn2⟩
      rcases List.mem_map.mp hn1 with ⟨m, _, rfl⟩
      exact ⟨of_decide_eq_true hn2, connGet_connDel _ _⟩

/-- Witness for C6: removing B from scenario 1 returns true and prunes
the edge A to B. -/
theorem removeConcept_spec_witness :
    (scenario1Net.removeConcept "B").1 = true ∧
    (scenario1Net.removeConcept "B").2.nodes =
      (scenario1Net.nodes.filter (fun n => n.id ≠ "B")).map (fun n => n.removeConn "B") ∧
    (∀ n ∈ (scenario1Net.removeConcept "B").2.nodes,
      n.id ≠ "B" ∧ connGet n.connections "B" = none) ∧
    (scenario1Net.removeConcept "B").2.activationHistory = scenario1Net.activationHistory ∧
    (scenario1Net.removeConcept "B").2.iterationCount = scenario1Net.iterationCount :=
  (removeConcept_spec scenario1Net "B").2 rfl

theorem getNode_modifyNode_addConn (g : Network) (i j tgt : String) (w : ℝ) :
    (g.modifyNode i (fun n => n.addConn tgt w)).getNode j =
      (g.getNode j).map (fun n => if n.id = i then n.addConn tgt w else n) :=
  getNode_modifyNode g i j (fun n => n.addConn tgt w) (fun _ => rfl)

/-- C7: `addConnection` fails with NotFound when either endpoint is
absent; otherwise it stores the edge source to target with the weight
saturated into [0,1], overwriting any existing weight for that pair
(the stored value is the clamped argument regardless of what was there
before), and when bidirectional also stores target to source with the
same clamped weight; concretely, re-adding the existing A-B edge of
scenario 1 with weight -5 stores 0 and with weight 5 stores 1. -/
theorem addConnection_spec (g : Network) (s t : String) (w : ℝ) (b : Bool) :
    ((g.hasNode s = false ∨ g.hasNode t = false) →
      g.addConnection s t w b = .error .NotFound) ∧
    (g.hasNode s = true → g.hasNode t = true →
      ∃ g2, g.addConnection s t w b = .ok g2 ∧
        (∃ ns, g2.getNode s = some ns ∧
          connGet ns.connections t = some (max 0 (min 1 w))) ∧
        (b = true → ∃ nt, g2.getNode t = some nt ∧
          connGet nt.connections s = some (max 0 (min 1 w)))) ∧
    ((scenario1Net.addConnection "A" "B" (-5) false).map (fun g2 =>
      (g2.getNode "A").map (fun n => connGet n.connections "B"))
        = .ok (some (some 0))) ∧
    ((scenario1Net.addConnection "A" "B" 5 false).map (fun g2 =>
      (g2.getNode "A").map (fun n => connGet n.connections "B"))
        = .ok (some (some 1))) := by
  refine ⟨?_, ?_, ?_, ?_⟩
  · rintro (h | h) <;> simp [Network.addConnection, h]
  · intro hs ht
    rcases hasNode_getNode g s hs with ⟨n0, hn0⟩
    have hid0 : n0.id = s := (getNode_eq_some g s n0 hn0).2
    by_cases hb : b = true
    · subst hb
      refine ⟨(g.modifyNode s (fun n => n.addConn t (max 0 (min 1 w)))).modifyNode t
          (fun n => n.addConn s (max 0 (min 1 w))),
        by simp [Network.addConnection, hs, ht], ?_, ?_⟩
      · have e1 : (g.modifyNode s (fun n => n.addConn t (max 0 (min 1 w)))).getNode s
            = some (n0.addConn t (max 0 (min 1 w))) := by
          rw [getNode_modifyNode_addConn, hn0]
          simp [hid0]
        rcases Decidable.em (s = t) with rfl | hst
        · refine ⟨(n0.addConn s (max 0 (min 1 w))).addConn s (max 0 (min 1 w)), ?_, ?_⟩
          · rw [getNode_modifyNode_addConn, e1]
            simp [hid0]
          · exact connGet_connSet_self _ _ _
        · refine ⟨n0.addConn t (max 0 (min 1 w)), ?_, ?_⟩
          · rw [getNode_modifyNode_addConn, e1]
            simp [hid0, hst]
          · exact connGet_connSet_self _ _ _
      · intro _
        rcases hasNode_getNode g t ht with ⟨m0, hm0⟩
        have hidm : m0.id = t := (getNode_eq_some g t m0 hm0).2
        rcases Decidable.em (s = t) with rfl | hst
        · refine ⟨(n0.addConn s (max 0 (min 1 w))).addConn s (max 0 (min 1 w)), ?_, ?_⟩
          · rw [getNode_modifyNode_addConn, getNode_modifyNode_addConn, hn0]
            simp [hid0]
          · exact connGet_connSet_self _ _ _
        · refine ⟨m0.addConn s (max 0 (min 1 w)), ?_, ?_⟩
          · have hts : ¬ t = s := fun h => hst h.symm
            rw [getNode_modifyNode_addConn, getNode_modifyNode_addConn, hm0]
            simp [hidm, hts]
          · exact connGet_connSet_self _ _ _
    · have hb2 : b = false := by revert hb; cases b <;> simp
      subst hb2
      refine ⟨g.modifyNode s (fun n => n.addConn t (max 0 (min 1 w))),
        by simp [Network.addConnection, hs, ht], ?_, by intro h; cases h⟩
      refine ⟨n0.addConn t (max 0 (min 1 w)), ?_, connGet_connSet_self _ _ _⟩
      rw [getNode_modifyNode_addConn, hn0]
      simp [hid0]
  · have hm5 : max (0:ℝ) (min 1 (-5)) = 0 := by norm_num
    simp [Network.addConnection, Network.hasNode, Network.modifyNode, Network.getNode,
      ConceptNode.addConn, connSet, connGet, scenario1Net, node1A, node1B, hm5,
      Except.map, List.find?]
  · have hp5 : max (0:ℝ) (min 1 (5:ℝ)) = 1 := by norm_num
    simp [Network.addConnection, Network.hasNode, Network.modifyNode, Network.getNode,
      ConceptNode.addConn, connSet, connGet, scenario1Net, node1A, node1B, hp5,
      Except.map, List.find?]

/-- Witness for C7: adding the bidirectional A-B edge of weight 0.3 on
scenario 1 succeeds and stores 0.3 in both directions. -/
theorem addConnection_spec_witness :
    ∃ g2, scenario1Net.addConnection "A" "B" 0.3 true = .ok g2 ∧
      (∃ ns, g2.getNode "A" = some ns ∧
        connGet ns.connections "B" = some (max 0 (min 1 0.3))) ∧
      (true = true → ∃ nt, g2.getNode "B" = some nt ∧
        connGet nt.connections "A" = some (max 0 (min 1 0.3))) :=
  (addConnection_spec scenario1Net "A" "B" 0.3 true).2.1 rfl rfl

theorem modifyNode_not_has (g : Network) (i : String) (f : ConceptNode → ConceptNode)
    (h : g.hasNode i = false) : g.modifyNode i f = g := by
  unfold Network.modifyNode
  have e : g.nodes.map (fun n => if n.id = i then f n else n) = g.nodes := by
    conv_rhs => rw [← List.map_id g.nodes]
    apply List.map_congr_left
    intro n hn
    have hni : ¬ n.id = i := by
      intro he
      have := (hasNode_iff g i).mpr ⟨n, hn, he⟩
      rw [h] at this
      cases this
    simp [hni]
  rw [e]

theorem lookup_eq_none_of_not_mem (a : String) (ps : List (String × ℝ))
    (h : a ∉ ps.map Prod.fst) : List.lookup a ps = none := by
  induction ps with
  | nil => rfl
  | cons p ps ih =>
      obtain ⟨k, b⟩ := p
      simp only [List.map_cons, List.mem_cons] at h
      push_neg at h
      have hk : (a == k) = false := by simp [h.1]
      simp [List.lookup, hk, ih h.2]

theorem lookup_const_pairs (a : String) (ids : List String) (v : ℝ) :
    List.lookup a (ids.map (fun i => (i, v))) = if a ∈ ids then some v else none := by
  induction ids with
  | nil => rfl
  | cons i ids ih =>
      by_cases h : a = i
      · simp [List.lookup, h]
      · have hk : (a == i) = false := by simp [h]
        simp [List.lookup, hk, ih, h]

theorem seedFoldUniform_nodes (v : ℝ) (ids : List String) :
    ids.Nodup → ∀ (g1 : Network),
    (ids.foldl (fun acc i =>
        if acc.hasNode i then acc.modifyNode i (fun n => n.updateActivation v) else acc)
      g1).nodes
      = g1.nodes.map (fun n => if n.id ∈ ids then n.updateActivation v else n) := by
  induction ids with
  | nil => intro _ g1; simp
  | cons i ids ih =>
      intro hnd g1
      rcases List.nodup_cons.mp hnd with ⟨hi, hnd2⟩
      simp only [List.foldl_cons]
      have hstep : (if g1.hasNode i then g1.modifyNode i (fun n => n.updateActivation v)
          else g1) = g1.modifyNode i (fun n => n.updateActivation v) := by
        by_cases h : g1.hasNode i
        · simp [h]
        · simp only [Bool.not_eq_true] at h
          rw [if_neg (by simp [h]), modifyNode_not_has _ _ _ h]
      rw [hstep, ih hnd2]
      unfold Network.modifyNode
      simp only [List.map_map]
      apply List.map_congr_left
      intro n _
      by_cases h1 : n.id = i
      · simp [Function.comp, h1, hi]
      · simp [Function.comp, h1]

theorem seedFoldPairs_nodes (ps : List (String × ℝ)) :
    (ps.map Prod.fst).Nodup → ∀ (g1 : Network),
    (ps.foldl (fun acc p =>
        if acc.hasNode p.1 then acc.modifyNode p.1 (fun n => n.updateActivation p.2) else acc)
      g1).nodes
      = g1.nodes.map (fun n =>
          match List.lookup n.id ps with
          | some a => n.updateActivation a
          | none => n) := by
  induction ps with
  | nil => intro _ g1; simp [List.lookup]
  | cons p ps ih =>
      intro hnd g1
      obtain ⟨k, b⟩ := p
      simp only [List.map_cons] at hnd
      rcases List.nodup_cons.mp hnd with ⟨hk, hnd2⟩
      simp only [List.foldl_cons]
      have hstep : (if g1.hasNode k then g1.modifyNode k (fun n => n.updateActivation b)
          else g1) = g1.modifyNode k (fun n => n.updateActivation b) := by
        by_cases h : g1.hasNode k
        · simp [h]
        · simp only [Bool.not_eq_true] at h
          rw [if_neg (by simp [h]), modifyNode_not_has _ _ _ h]
      rw [hstep, ih hnd2]
      unfold Network.modifyNode
      simp only [List.map_map]
      apply List.map_congr_left
      intro n _
      by_cases h1 : n.id = k
      · have hnone : List.lookup k ps = none := lookup_eq_none_of_not_mem k ps hk
        simp [Function.comp, List.lookup, h1, hnone]
      · have hne : (n.id == k) = false := by simp [h1]
        simp [Function.comp, List.lookup, h1, hne]

/-- The state used to refute the reset behaviour C2 asserts: a single
node whose activation is currently 0.5 (the value sigmoid(0), so a
state reachable by actual rounds). -/
def c2Node : ConceptNode :=
  { id := "a", label := "concept a", category := none,
    connections := [], activation := 0.5, prevActivation := 0, metadata := [] }

def c2Net : Network :=
  { nodes := [c2Node], activationHistory := [], iterationCount := 3,
    params := defaultParams }

/-- Counterexample to C2: after `setInitialActivation` with an empty
selection on a graph whose only node has activation 0.5, that
unselected node has previousActivation 0.5, not 0 — the reset goes
through `updateActivation(0.0)`, which saves the old activation into
previousActivation instead of zeroing it. -/
theorem setInitialActivation_counterexample :
    ((c2Net.setInitialActivation (.uniformList []) 1).nodes.map ConceptNode.prevActivation)
      = [0.5] ∧ (0.5 : ℝ) ≠ 0 := by
  constructor
  · simp [Network.setInitialActivation, Network.recordActivationState,
      ConceptNode.updateActivation, c2Net, c2Node]
  · norm_num

/-- C2 amended: `setInitialActivation` rewrites every node through
`updateActivation`: an unselected node ends with activation 0 and
previousActivation equal to its pre-call activation (not necessarily
0); a selected present node ends with the selected value and
previousActivation 0; absent selected ids are silently skipped; the
history is cleared and round 0 records the post-reset post-seed state,
leaving the iteration counter at 1.  Stated for selections without
duplicate ids (a JavaScript object cannot repeat keys; repeating an id
in the list variant merely repeats the same update). -/
theorem setInitialActivation_spec (g : Network) (ids : List String)
    (pairs : List (String × ℝ)) (v : ℝ)
    (hnd : ids.Nodup) (hndp : (pairs.map Prod.fst).Nodup) :
    (g.setInitialActivation (.uniformList ids) v).nodes =
      g.nodes.map (fun n =>
        if n.id ∈ ids then { n with prevActivation := 0, activation := v }
        else { n with prevActivation := n.activation, activation := 0 }) ∧
    (g.setInitialActivation (.mapping pairs) v).nodes =
      g.nodes.map (fun n =>
        match List.lookup n.id pairs with
        | some a => { n with prevActivation := 0, activation := a }
        | none => { n with prevActivation := n.activation, activation := 0 }) ∧
    (g.setInitialActivation (.uniformList ids) v).iterationCount = 1 ∧
    (g.setInitialActivation (.uniformList ids) v).activationHistory =
      [{ iteration := 0,
         activations := (g.setInitialActivation (.uniformList ids) v).nodes.map
           (fun n => { id := n.id, label := n.label, activation := n.activation,
                       category := n.category }) }] := by
  refine ⟨?_, ?_, rfl, rfl⟩
  · have e : (g.setInitialActivation (.uniformList ids) v).nodes =
        (ids.foldl (fun (acc : Network) (i : String) =>
          if acc.hasNode i then acc.modifyNode i (fun n => n.updateActivation v) else acc)
          { g with nodes := g.nodes.map (fun n => n.updateActivation 0) }).nodes := rfl
    rw [e, seedFoldUniform_nodes v ids hnd]
    simp only [List.map_map]
    apply List.map_congr_left
    intro n _
    by_cases h1 : n.id ∈ ids
    · simp [Function.comp, h1, ConceptNode.updateActivation]
    · simp [Function.comp, h1, ConceptNode.updateActivation]
  · have e : (g.setInitialActivation (.mapping pairs) v).nodes =
        (pairs.foldl (fun (acc : Network) (p : String × ℝ) =>
          if acc.hasNode p.1 then acc.modifyNode p.1 (fun n => n.updateActivation p.2) else acc)
          { g with nodes := g.nodes.map (fun n => n.updateActivation 0) }).nodes := rfl
    rw [e, seedFoldPairs_nodes pairs hndp]
    simp only [List.map_map]
    apply List.map_congr_left
    intro n _
    rcases hl : List.lookup n.id pairs with _ | a
    · simp [Function.comp, hl, ConceptNode.updateActivation]
    · simp [Function.comp, hl, ConceptNode.updateActivation]

/-- Witness for C2 amended: seeding ["a"] with 1.0 on the 0.5-activated
one-node state. -/
theorem setInitialActivation_spec_witness :
    (c2Net.setInitialActivation (.uniformList ["a"]) 1).nodes =
      c2Net.nodes.map (fun n =>
        if n.id ∈ ["a"] then { n with prevActivation := 0, activation := 1 }
        else { n with prevActivation := n.activation, activation := 0 }) ∧
    (c2Net.setInitialActivation (.mapping [("a", 0.4)]) 1).nodes =
      c2Net.nodes.map (fun n =>
        match List.lookup n.id [("a", 0.4)] with
        | some a => { n with prevActivation := 0, activation := a }
        | none => { n with prevActivation := n.activation, activation := 0 }) ∧
    (c2Net.setInitialActivation (.uniformList ["a"]) 1).iterationCount = 1 ∧
    (c2Net.setInitialActivation (.uniformList ["a"]) 1).activationHistory =
      [{ iteration := 0,
         activations := (c2Net.setInitialActivation (.uniformList ["a"]) 1).nodes.map
           (fun n => { id := n.id, label := n.label, activation := n.activation,
                       category := n.category }) }] :=
  setInitialActivation_spec c2Net ["a"] [("a", 0.4)] 1 (by simp) (by simp)

/-! C4: option handling of runUntilConvergence versus spreadActivation. -/

def c4Node : ConceptNode :=
  { id := "a", label := "concept a", category := none,
    connections := [], activation := 1, prevActivation := 0, metadata := [] }

def c4Net : Network :=
  { nodes := [c4Node], activationHistory := [], iterationCount := 0,
    params := defaultParams }

/-- Counterexample to C4: on a one-node graph with activation 1 and no
edges, `runUntilConvergence` with an explicitly supplied decayRate of 0
(and maxIterations 1) leaves the node at sigmoid(0.9) — the default
decay rate 0.1 was used, because the option merge treats the falsy 0 as
absent — whereas honouring the supplied 0 would leave sigmoid(1). -/
theorem runUntilConvergence_counterexample :
    ((c4Net.runUntilConvergence
        { maxIterations := some 1, convergenceThreshold := some 100,
          decayRate := some 0 }).1.nodes.map ConceptNode.activation)
      = [sigmoid 0.9] ∧
    sigmoid 0.9 ≠ sigmoid 1 := by
  constructor
  · norm_num [Network.runUntilConvergence, Network.runLoop, Network.spreadStep,
      Network.recordActivationState, Network.nextActivation, Network.incomingFor,
      ConceptNode.updateActivation, jsOrReal, jsOrNat, deltaAbove,
      c4Net, c4Node, defaultParams]
  · intro h
    have := sigmoid_strictMono.injective h
    norm_num at this

/-- C4 amended: `runUntilConvergence` merges its options with the
configured defaults by JavaScript falsy-or, so a supplied nonzero value
is used but a supplied 0 (or a missing value) falls back to the
default; `spreadActivation`, by contrast, uses any non-null decayRate
argument verbatim — including 0 — and substitutes the configured
default only for null; concretely the run of the counterexample with
decayRate 0.2 does use 0.2, yielding sigmoid(0.8). -/
theorem optionDefaults_spec :
    (∀ (g : Network) (d : ℝ), g.spreadActivation (some d) = g.spreadStep d) ∧
    (∀ (g : Network), g.spreadActivation none = g.spreadStep g.params.decayRate) ∧
    (∀ (x dflt : ℝ), x ≠ 0 → jsOrReal (some x) dflt = x) ∧
    (∀ (dflt : ℝ), jsOrReal none dflt = dflt ∧ jsOrReal (some 0) dflt = dflt) ∧
    (∀ (k dflt : ℕ), k ≠ 0 → jsOrNat (some k) dflt = k) ∧
    (∀ (dflt : ℕ), jsOrNat none dflt = dflt ∧ jsOrNat (some 0) dflt = dflt) ∧
    (∀ (g : Network) (opts : RunOptions),
      g.runUntilConvergence opts =
        (let r := Network.runLoop (jsOrReal opts.decayRate g.params.decayRate)
            (jsOrReal opts.convergenceThreshold g.params.convergenceThreshold)
            (jsOrNat opts.maxIterations g.params.maxIterations) g 0 none
         (r.1, { converged := deltaLE r.2.2
                   (jsOrReal opts.convergenceThreshold g.params.convergenceThreshold),
                 iterations := r.2.1, finalDelta := r.2.2 }))) ∧
    ((c4Net.runUntilConvergence
        { maxIterations := some 1, convergenceThreshold := some 100,
          decayRate := some 0.2 }).1.nodes.map ConceptNode.activation)
      = [sigmoid 0.8] := by
  refine ⟨fun g d => rfl, fun g => rfl, ?_, ?_, ?_, ?_, fun g opts => rfl, ?_⟩
  · intro x dflt hx
    simp [jsOrReal, hx]
  · intro dflt
    exact ⟨rfl, by simp [jsOrReal]⟩
  · intro k dflt hk
    simp [jsOrNat, hk]
  · intro dflt
    exact ⟨rfl, by simp [jsOrNat]⟩
  · norm_num [Network.runUntilConvergence, Network.runLoop, Network.spreadStep,
      Network.recordActivationState, Network.nextActivation, Network.incomingFor,
      ConceptNode.updateActivation, jsOrReal, jsOrNat, deltaAbove,
      c4Net, c4Node, defaultParams]

/-- Witness for C4 amended: a supplied nonzero threshold is used. -/
theorem optionDefaults_spec_witness : jsOrReal (some 5) 3 = 5 :=
  optionDefaults_spec.2.2.1 5 3 (by norm_num)

/-! C8: getTopActivatedConcepts ordering. -/

theorem insertDescBy_perm {α : Type} (key : α → ℝ) (a : α) (l : List α) :
    (insertDescBy key a l).Perm (a :: l) := by
  induction l with
  | nil => exact List.Perm.refl _
  | cons b bs ih =>
      unfold insertDescBy
      by_cases h : decide (key b ≤ key a) = true
      · rw [if_pos h]
      · rw [if_neg h]
        exact (ih.cons b).trans (List.Perm.swap a b bs)

theorem stableSortDescBy_perm {α : Type} (key : α → ℝ) (l : List α) :
    (stableSortDescBy key l).Perm l := by
  induction l with
  | nil => exact List.Perm.refl _
  | cons a l ih =>
      unfold stableSortDescBy at *
      simp only [List.foldr_cons]
      exact (insertDescBy_perm key a _).trans (ih.cons a)

theorem insertDescBy_sorted {α : Type} (key : α → ℝ) (a : α) (l : List α)
    (h : List.Pairwise (fun x y => key y ≤ key x) l) :
    List.Pairwise (fun x y => key y ≤ key x) (insertDescBy key a l) := by
  induction l with
  | nil => simp [insertDescBy]
  | cons b bs ih =>
      unfold insertDescBy
      rcases List.pairwise_cons.mp h with ⟨hb, hbs⟩
      by_cases hc : decide (key b ≤ key a) = true
      · rw [if_pos hc]
        apply List.pairwise_cons.mpr
        refine ⟨?_, h⟩
        intro y hy
        rcases List.mem_cons.mp hy with rfl | hy2
        · exact of_decide_eq_true hc
        · exact le_trans (hb y hy2) (of_decide_eq_true hc)
      · rw [if_neg hc]
        apply List.pairwise_cons.mpr
        refine ⟨?_, ih hbs⟩
        intro y hy
        have hy2 := (insertDescBy_perm key a bs).mem_iff.mp hy
        rcases List.mem_cons.mp hy2 with rfl | hy3
        · have hlt : ¬ key b ≤ key y := by
            intro hle
            exact hc (decide_eq_true hle)
          exact le_of_lt (lt_of_not_le hlt)
        · exact hb y hy3

theorem stableSortDescBy_sorted {α : Type} (key : α → ℝ) (l : List α) :
    List.Pairwise (fun x y => key y ≤ key x) (stableSortDescBy key l) := by
  induction l with
  | nil => simp [stableSortDescBy]
  | cons a l ih =>
      unfold stableSortDescBy at *
      simp only [List.foldr_cons]
      exact insertDescBy_sorted key a _ ih

def nodeC1 : ConceptNode :=
  { id := "c1", label := "concept 1", category := none,
    connections := [], activation := 1, prevActivation := 0, metadata := [] }

def nodeC2 : ConceptNode :=
  { id := "c2", label := "concept 2", category := none,
    connections := [], activation := 1, prevActivation := 0, metadata := [] }

/-- c1 then c2 in insertion order, both seeded to 1.0. -/
def c8GoodNet : Network :=
  { nodes := [nodeC1, nodeC2], activationHistory := [], iterationCount := 0,
    params := defaultParams }

/-- c2 then c1 in insertion order, both seeded to 1.0. -/
def c8BadNet : Network :=
  { nodes := [nodeC2, nodeC1], activationHistory := [], iterationCount := 0,
    params := defaultParams }

/-- Counterexample to C8: with c2 inserted before c1 and both at
activation 1.0, `getTopActivatedConcepts(10, 0.5)` returns c2 before
c1 — the stable sort keeps ties in graph insertion order, it does not
break them by ascending id. -/
theorem getTop_counterexample :
    ((c8BadNet.getTopActivatedConcepts 10 (some 0.5)).map TopEntry.id) = ["c2", "c1"] ∧
    (["c2", "c1"] : List String) ≠ ["c1", "c2"] := by
  constructor
  · norm_num [Network.getTopActivatedConcepts, stableSortDescBy, insertDescBy,
      ConceptNode.toEntry, c8BadNet, nodeC1, nodeC2]
  · simp

/-- C8 amended: `getTopActivatedConcepts` returns exactly the nodes
meeting the threshold (the sorted list is a permutation of the
filtered list), in descending activation order, truncated to the
limit, with ties kept in graph insertion order (stable sort) rather
than broken by id; the spec scenario holds when c1 was inserted before
c2: both at 1.0, the call returns c1 then c2. -/
theorem getTop_spec (g : Network) (limit : ℕ) (thr : Option ℝ) :
    List.Pairwise (fun a b => b.activation ≤ a.activation)
      (g.getTopActivatedConcepts limit thr) ∧
    (∀ e ∈ g.getTopActivatedConcepts limit thr,
      thr.getD g.params.activationThreshold ≤ e.activation) ∧
    (stableSortDescBy ConceptNode.activation
        (g.nodes.filter (fun n =>
          decide (thr.getD g.params.activationThreshold ≤ n.activation)))).Perm
      (g.nodes.filter (fun n =>
        decide (thr.getD g.params.activationThreshold ≤ n.activation))) ∧
    ((c8GoodNet.getTopActivatedConcepts 10 (some 0.5)).map TopEntry.id) = ["c1", "c2"] := by
  refine ⟨?_, ?_, stableSortDescBy_perm _ _, ?_⟩
  · unfold Network.getTopActivatedConcepts
    rw [List.pairwise_map]
    exact (stableSortDescBy_sorted ConceptNode.activation _).sublist (List.take_sublist _ _)
  · intro e he
    unfold Network.getTopActivatedConcepts at he
    rcases List.mem_map.mp he with ⟨n, hn, rfl⟩
    have hn2 : n ∈ stableSortDescBy ConceptNode.activation
        (g.nodes.filter (fun n =>
          decide (thr.getD g.params.activationThreshold ≤ n.activation))) :=
      List.mem_of_mem_take hn
    have hn3 := (stableSortDescBy_perm _ _).mem_iff.mp hn2
    have := (List.mem_filter.mp hn3).2
    exact of_decide_eq_true this
  · norm_num [Network.getTopActivatedConcepts, stableSortDescBy, insertDescBy,
      ConceptNode.toEntry, c8GoodNet, nodeC1, nodeC2]

/-- Witness for C8 amended: the first returned entry of the scenario
meets the 0.5 threshold. -/
theorem getTop_spec_witness :
    (some (0.5 : ℝ)).getD c8GoodNet.params.activationThreshold ≤ nodeC1.toEntry.activation :=
  (getTop_spec c8GoodNet 10 (some 0.5)).2.1 nodeC1.toEntry
    (by norm_num [Network.getTopActivatedConcepts, stableSortDescBy, insertDescBy,
      ConceptNode.toEntry, c8GoodNet, nodeC1, nodeC2])

/-! C3: termination and convergence reporting of runUntilConvergence. -/

/-- Iterated rounds of the resolved spreading step. -/
def iterSpreadStep (d : ℝ) : ℕ → Network → Network
  | 0, g => g
  | k + 1, g => iterSpreadStep d k (g.spreadStep d).1

theorem deltaAbove_false_deltaLE (delta : Option ℝ) (thr : ℝ)
    (h : deltaAbove delta thr = false) : deltaLE delta thr = true := by
  cases delta with
  | none => simp [deltaAbove] at h
  | some x =>
      simp only [deltaAbove, decide_eq_false_iff_not, not_lt] at h
      simp [deltaLE, h]

theorem deltaLE_iff (delta : Option ℝ) (thr : ℝ) :
    deltaLE delta thr = true ↔ ∃ x, delta = some x ∧ x ≤ thr := by
  cases delta with
  | none => simp [deltaLE]
  | some x => simp [deltaLE]

/-- Full characterisation of the while loop of `runUntilConvergence`,
by induction on the remaining iteration budget. -/
theorem runLoop_spec (d thr : ℝ) :
    ∀ (fuel : ℕ) (g : Network) (iter : ℕ) (delta : Option ℝ),
    iter ≤ (Network.runLoop d thr fuel g iter delta).2.1 ∧
    (Network.runLoop d thr fuel g iter delta).2.1 - iter ≤ fuel ∧
    (Network.runLoop d thr fuel g iter delta).1 =
      iterSpreadStep d ((Network.runLoop d thr fuel g iter delta).2.1 - iter) g ∧
    ((Network.runLoop d thr fuel g iter delta).2.1 - iter < fuel →
      deltaAbove (Network.runLoop d thr fuel g iter delta).2.2 thr = false) ∧
    ((Network.runLoop d thr fuel g iter delta).2.1 = iter →
      (Network.runLoop d thr fuel g iter delta).2.2 = delta) ∧
    (1 ≤ fuel → deltaAbove delta thr = true →
      iter < (Network.runLoop d thr fuel g iter delta).2.1) ∧
    (0 < (Network.runLoop d thr fuel g iter delta).2.1 - iter →
      (Network.runLoop d thr fuel g iter delta).2.2 =
        some ((iterSpreadStep d ((Network.runLoop d thr fuel g iter delta).2.1 - iter - 1)
          g).spreadStep d).2.totalDelta) ∧
    (∀ q, q + 1 < (Network.runLoop d thr fuel g iter delta).2.1 - iter →
      thr < ((iterSpreadStep d q g).spreadStep d).2.totalDelta) ∧
    (iter < (Network.runLoop d thr fuel g iter delta).2.1 →
      deltaAbove delta thr = true) := by
  intro fuel
  induction fuel with
  | zero =>
      intro g iter delta
      refine ⟨le_refl _, by simp [Network.runLoop], ?_, ?_, ?_, ?_, ?_, ?_, ?_⟩
      · simp [Network.runLoop, iterSpreadStep]
      · simp [Network.runLoop]
      · simp [Network.runLoop]
      · intro h; omega
      · simp [Network.runLoop]
      · intro q hq
        simp [Network.runLoop] at hq
      · intro h
        simp [Network.runLoop] at h
  | succ fuel ih =>
      intro g iter delta
      by_cases hd : deltaAbove delta thr = true
      · have hunf : Network.runLoop d thr (fuel + 1) g iter delta =
            Network.runLoop d thr fuel (g.spreadStep d).1 (iter + 1)
              (some (g.spreadStep d).2.totalDelta) := by
          simp [Network.runLoop, hd]
        rcases ih (g.spreadStep d).1 (iter + 1) (some (g.spreadStep d).2.totalDelta) with
          ⟨ih1, ih2, ih3, ih4, ih5, _, ih7, ih8, ih9⟩
        rw [hunf]
        have hiter : iter + 1 ≤ (Network.runLoop d thr fuel (g.spreadStep d).1 (iter + 1)
            (some (g.spreadStep d).2.totalDelta)).2.1 := ih1
        refine ⟨le_trans (Nat.le_succ iter) hiter, by omega, ?_, ?_, ?_, ?_, ?_, ?_, ?_⟩
        · rw [ih3]
          have hshift : (Network.runLoop d thr fuel (g.spreadStep d).1 (iter + 1)
              (some (g.spreadStep d).2.totalDelta)).2.1 - iter =
              ((Network.runLoop d thr fuel (g.spreadStep d).1 (iter + 1)
                (some (g.spreadStep d).2.totalDelta)).2.1 - (iter + 1)) + 1 := by omega
          rw [hshift]
          rfl
        · intro hlt
          exact ih4 (by omega)
        · intro heq
          omega
        · intro _ _
          omega
        · intro _
          by_cases hz : 0 < (Network.runLoop d thr fuel (g.spreadStep d).1 (iter + 1)
              (some (g.spreadStep d).2.totalDelta)).2.1 - (iter + 1)
          · rw [ih7 hz]
            have hshift : (Network.runLoop d thr fuel (g.spreadStep d).1 (iter + 1)
                (some (g.spreadStep d).2.totalDelta)).2.1 - iter - 1 =
                ((Network.runLoop d thr fuel (g.spreadStep d).1 (iter + 1)
                  (some (g.spreadStep d).2.totalDelta)).2.1 - (iter + 1) - 1) + 1 := by omega
            rw [hshift]
            rfl
          · have heq : (Network.runLoop d thr fuel (g.spreadStep d).1 (iter + 1)
                (some (g.spreadStep d).2.totalDelta)).2.1 = iter + 1 := by omega
            rw [ih5 heq]
            have hz2 : (Network.runLoop d thr fuel (g.spreadStep d).1 (iter + 1)
                (some (g.spreadStep d).2.totalDelta)).2.1 - iter - 1 = 0 := by omega
            rw [hz2]
            rfl
        · intro q hq
          cases q with
          | zero =>
              have h9 := ih9 (by omega)
              simp only [deltaAbove] at h9
              simp only [iterSpreadStep]
              exact of_decide_eq_true h9
          | succ q2 =>
              simp only [iterSpreadStep]
              exact ih8 q2 (by omega)
        · intro _
          exact hd
      · have hd2 : deltaAbove delta thr = false := by
          revert hd; cases deltaAbove delta thr <;> simp
        have hunf : Network.runLoop d thr (fuel + 1) g iter delta = (g, iter, delta) := by
          simp [Network.runLoop, hd2]
        rw [hunf]
        refine ⟨le_refl _, by simp, by simp [iterSpreadStep], ?_, ?_, ?_, ?_, ?_, ?_⟩
        · intro _; exact hd2
        · intro _; rfl
        · intro _ habove
          rw [habove] at hd2
          cases hd2
        · intro h
          simp at h
        · intro q hq
          simp at hq
        · intro h
          simp at h

/-- C3: with a supplied positive maxIterations k, `runUntilConvergence`
performs at least one and at most k rounds of the spreading step (the
function is total, so it always terminates), the returned graph is
exactly that many iterated rounds, `converged` is true exactly when the
final delta is a real value at most the effective threshold, stopping
before the cap implies convergence, and the reported final delta is the
totalDelta of the last round performed; moreover the stop is as early
as possible: every round before the last had totalDelta strictly above
the threshold, and in particular when the very first round's delta
already satisfies the threshold the loop stops right there with one
iteration and converged trivially true. -/
theorem runUntilConvergence_spec (g : Network) (opts : RunOptions) (k : ℕ)
    (hk : opts.maxIterations = some k) (hpos : 0 < k) :
    (g.runUntilConvergence opts).2.iterations ≤ k ∧
    1 ≤ (g.runUntilConvergence opts).2.iterations ∧
    (g.runUntilConvergence opts).1 =
      iterSpreadStep (jsOrReal opts.decayRate g.params.decayRate)
        (g.runUntilConvergence opts).2.iterations g ∧
    ((g.runUntilConvergence opts).2.converged = true ↔
      ∃ x, (g.runUntilConvergence opts).2.finalDelta = some x ∧
        x ≤ jsOrReal opts.convergenceThreshold g.params.convergenceThreshold) ∧
    ((g.runUntilConvergence opts).2.iterations < k →
      (g.runUntilConvergence opts).2.converged = true) ∧
    (∃ x, (g.runUntilConvergence opts).2.finalDelta = some x ∧
      x = ((iterSpreadStep (jsOrReal opts.decayRate g.params.decayRate)
        ((g.runUntilConvergence opts).2.iterations - 1) g).spreadStep
          (jsOrReal opts.decayRate g.params.decayRate)).2.totalDelta) ∧
    (∀ q, q + 1 < (g.runUntilConvergence opts).2.iterations →
      jsOrReal opts.convergenceThreshold g.params.convergenceThreshold <
        ((iterSpreadStep (jsOrReal opts.decayRate g.params.decayRate) q g).spreadStep
          (jsOrReal opts.decayRate g.params.decayRate)).2.totalDelta) ∧
    ((g.spreadStep (jsOrReal opts.decayRate g.params.decayRate)).2.totalDelta ≤
        jsOrReal opts.convergenceThreshold g.params.convergenceThreshold →
      (g.runUntilConvergence opts).2.iterations = 1 ∧
      (g.runUntilConvergence opts).2.converged = true) := by
  have hmax : jsOrNat opts.maxIterations g.params.maxIterations = k := by
    rw [hk]
    simp [jsOrNat, Nat.pos_iff_ne_zero.mp hpos]
  have e : g.runUntilConvergence opts =
      ((Network.runLoop (jsOrReal opts.decayRate g.params.decayRate)
          (jsOrReal opts.convergenceThreshold g.params.convergenceThreshold) k g 0 none).1,
       { converged := deltaLE (Network.runLoop (jsOrReal opts.decayRate g.params.decayRate)
            (jsOrReal opts.convergenceThreshold g.params.convergenceThreshold) k g 0 none).2.2
            (jsOrReal opts.convergenceThreshold g.params.convergenceThreshold),
         iterations := (Network.runLoop (jsOrReal opts.decayRate g.params.decayRate)
            (jsOrReal opts.convergenceThreshold g.params.convergenceThreshold) k g 0 none).2.1,
         finalDelta := (Network.runLoop (jsOrReal opts.decayRate g.params.decayRate)
            (jsOrReal opts.convergenceThreshold g.params.convergenceThreshold) k g 0 none).2.2 }) := by
    unfold Network.runUntilConvergence
    rw [hmax]
  obtain ⟨h1, h2, h3, h4, h5, h6, h7, h8, h9⟩ :=
    runLoop_spec (jsOrReal opts.decayRate g.params.decayRate)
      (jsOrReal opts.convergenceThreshold g.params.convergenceThreshold) k g 0 none
  rw [e]
  dsimp only
  have hone : 0 < (Network.runLoop (jsOrReal opts.decayRate g.params.decayRate)
      (jsOrReal opts.convergenceThreshold g.params.convergenceThreshold) k g 0 none).2.1 :=
    h6 hpos rfl
  refine ⟨by omega, by omega, ?_, deltaLE_iff _ _, ?_, ?_, ?_, ?_⟩
  · rw [h3, Nat.sub_zero]
  · intro hlt
    exact deltaAbove_false_deltaLE _ _ (h4 (by omega))
  · refine ⟨_, h7 (by omega), ?_⟩
    rw [Nat.sub_zero]
  · intro q hq
    exact h8 q (by omega)
  · intro hfirst
    have hR1 : (Network.runLoop (jsOrReal opts.decayRate g.params.decayRate)
        (jsOrReal opts.convergenceThreshold g.params.convergenceThreshold) k g 0 none).2.1
        = 1 := by
      by_contra hne
      have hcontr := h8 0 (by omega)
      simp only [iterSpreadStep] at hcontr
      exact absurd hfirst (not_le.mpr hcontr)
    refine ⟨hR1, ?_⟩
    have h7b := h7 (by omega)
    rw [hR1] at h7b
    simp only [Nat.sub_zero, Nat.sub_self, iterSpreadStep] at h7b
    rw [deltaLE_iff]
    exact ⟨_, h7b, hfirst⟩

def c3Opts : RunOptions :=
  { maxIterations := some 2, convergenceThreshold := some 100, decayRate := some 0.5 }

/-- Witness for C3 on the one-node state with a supplied cap of 2. -/
theorem runUntilConvergence_spec_witness :
    (c4Net.runUntilConvergence c3Opts).2.iterations ≤ 2 ∧
    1 ≤ (c4Net.runUntilConvergence c3Opts).2.iterations ∧
    (c4Net.runUntilConvergence c3Opts).1 =
      iterSpreadStep (jsOrReal c3Opts.decayRate c4Net.params.decayRate)
        (c4Net.runUntilConvergence c3Opts).2.iterations c4Net ∧
    ((c4Net.runUntilConvergence c3Opts).2.converged = true ↔
      ∃ x, (c4Net.runUntilConvergence c3Opts).2.finalDelta = some x ∧
        x ≤ jsOrReal c3Opts.convergenceThreshold c4Net.params.convergenceThreshold) ∧
    ((c4Net.runUntilConvergence c3Opts).2.iterations < 2 →
      (c4Net.runUntilConvergence c3Opts).2.converged = true) ∧
    (∃ x, (c4Net.runUntilConvergence c3Opts).2.finalDelta = some x ∧
      x = ((iterSpreadStep (jsOrReal c3Opts.decayRate c4Net.params.decayRate)
        ((c4Net.runUntilConvergence c3Opts).2.iterations - 1) c4Net).spreadStep
          (jsOrReal c3Opts.decayRate c4Net.params.decayRate)).2.totalDelta) ∧
    (∀ q, q + 1 < (c4Net.runUntilConvergence c3Opts).2.iterations →
      jsOrReal c3Opts.convergenceThreshold c4Net.params.convergenceThreshold <
        ((iterSpreadStep (jsOrReal c3Opts.decayRate c4Net.params.decayRate) q
          c4Net).spreadStep
          (jsOrReal c3Opts.decayRate c4Net.params.decayRate)).2.totalDelta) ∧
    ((c4Net.spreadStep (jsOrReal c3Opts.decayRate c4Net.params.decayRate)).2.totalDelta ≤
        jsOrReal c3Opts.convergenceThreshold c4Net.params.convergenceThreshold →
      (c4Net.runUntilConvergence c3Opts).2.iterations = 1 ∧
      (c4Net.runUntilConvergence c3Opts).2.converged = true) :=
  runUntilConvergence_spec c4Net c3Opts 2 rfl (by norm_num)

/-! C9: emergent pattern identification. -/

/-- The id names a node in the graph whose activation meets the
threshold. -/
def ActiveId (g : Network) (thr : ℝ) (i : String) : Prop :=
  ∃ n, g.getNode i = some n ∧ thr ≤ n.activation

/-- The traversal relation of `identifyEmergentPatterns`: both
endpoints are active and j is a target of the outgoing connections of
the node i. -/
def activeEdge (g : Network) (thr : ℝ) (i j : String) : Prop :=
  (∃ n, g.getNode i = some n ∧ thr ≤ n.activation ∧ ∃ w, (j, w) ∈ n.connections) ∧
  ActiveId g thr j

/-- Reachability along active-to-active outgoing edges. -/
def ReachAct (g : Network) (thr : ℝ) : String → String → Prop :=
  Relation.ReflTransGen (activeEdge g thr)

theorem activeEdge_src (g : Network) (thr : ℝ) {i j : String}
    (h : activeEdge g thr i j) : ActiveId g thr i := by
  rcases h.1 with ⟨n, hn, ha, _⟩
  exact ⟨n, hn, ha⟩

theorem activeEdge_tgt (g : Network) (thr : ℝ) {i j : String}
    (h : activeEdge g thr i j) : ActiveId g thr j := h.2

theorem reachAct_active (g : Network) (thr : ℝ) {s t : String}
    (hs : ActiveId g thr s) (h : ReachAct g thr s t) : ActiveId g thr t := by
  rcases Relation.ReflTransGen.cases_tail h with h1 | ⟨c, _, hc2⟩
  · rwa [h1]
  · exact activeEdge_tgt g thr hc2

/-- Membership in the push list of one breadth-first step. -/
theorem mem_bfs_pushes (g : Network) (thr : ℝ) (visited1 : List String)
    (cs : List (String × ℝ)) (j : String) :
    (j ∈ cs.filterMap (fun p =>
      if p.1 ∈ visited1 then none
      else
        match g.getNode p.1 with
        | none => none
        | some m => if decide (thr ≤ m.activation) then some p.1 else none)) ↔
    (j ∉ visited1 ∧ (∃ w, (j, w) ∈ cs) ∧
      ∃ m, g.getNode j = some m ∧ thr ≤ m.activation) := by
  rw [List.mem_filterMap]
  constructor
  · rintro ⟨⟨a, b⟩, hp, hf⟩
    by_cases h1 : a ∈ visited1
    · simp [h1] at hf
    · rcases hg : g.getNode a with _ | m
      · simp [h1, hg] at hf
      · by_cases h2 : decide (thr ≤ m.activation) = true
        · simp only [h1, if_neg, hg, h2, if_true, if_pos] at hf
          have haj : a = j := by
            by_cases hij : a ∈ visited1
            · exact absurd hij h1
            · simp [hij] at hf
              exact hf
          subst haj
          exact ⟨h1, ⟨b, hp⟩, ⟨m, hg, of_decide_eq_true h2⟩⟩
        · simp [h1, hg, h2] at hf
  · rintro ⟨h1, ⟨w, hw⟩, ⟨m, hm, hact⟩⟩
    refine ⟨(j, w), hw, ?_⟩
    simp [h1, hm, decide_eq_true hact]

/-- Connection entries of the nodes not yet visited: the part of the
breadth-first termination measure that shrinks when a node is
visited. -/
def unvisitedConnSum (g : Network) (V : List String) : ℕ :=
  ((g.nodes.filter (fun n => decide (n.id ∉ V))).map (fun n => n.connections.length)).sum

theorem unvisitedConnSum_le_total (g : Network) (V : List String) :
    unvisitedConnSum g V ≤ (g.nodes.map (fun n => n.connections.length)).sum :=
  ((List.filter_sublist _).map _).sum_le_sum (fun a _ => Nat.zero_le a)

theorem sumConn_filter_cons (V : List String) (c : String) :
    ∀ (l : List ConceptNode) (cn : ConceptNode),
    (l.map ConceptNode.id).Nodup → cn ∈ l → cn.id = c → c ∉ V →
    ((l.filter (fun n => decide (n.id ∉ (c :: V)))).map (fun n => n.connections.length)).sum
      + cn.connections.length
    = ((l.filter (fun n => decide (n.id ∉ V))).map (fun n => n.connections.length)).sum := by
  intro l
  induction l with
  | nil => intro cn _ hmem; cases hmem
  | cons m l ih =>
      intro cn hnd hmem hid hV
      rw [List.map_cons] at hnd
      rcases List.nodup_cons.mp hnd with ⟨hmid, hlnd⟩
      rcases List.mem_cons.mp hmem with rfl | hmem2
      · have hdrop : (decide (cn.id ∉ (c :: V))) = false := by
          simp [hid]
        have hkeep : (decide (cn.id ∉ V)) = true := by
          simp [hid, hV]
        have hcong : l.filter (fun n => decide (n.id ∉ (c :: V)))
            = l.filter (fun n => decide (n.id ∉ V)) := by
          apply List.filter_congr
          intro n hn
          have hne : n.id ≠ c := by
            intro he
            exact hmid (by rw [hid, ← he]; exact List.mem_map_of_mem ConceptNode.id hn)
          simp [hne]
        simp only [List.filter_cons, hdrop, hkeep, if_true, if_false, cond_true, cond_false]
        rw [hcong]
        simp [Nat.add_comm]
      · have hmne : m.id ≠ c := by
          intro he
          exact hmid (by rw [he, ← hid]; exact List.mem_map_of_mem ConceptNode.id hmem2)
        have hcond : (decide (m.id ∉ (c :: V))) = (decide (m.id ∉ V)) := by
          apply decide_eq_decide.mpr
          simp [hmne]
        have ihr := ih cn hlnd hmem2 hid hV
        by_cases hmV : m.id ∉ V
        · have h1 : (decide (m.id ∉ (c :: V))) = true := by rw [hcond]; simp [hmV]
          have h2 : (decide (m.id ∉ V)) = true := by simp [hmV]
          simp only [List.filter_cons, h1, h2, if_true, List.map_cons, List.sum_cons]
          omega
        · have h1 : (decide (m.id ∉ (c :: V))) = false := by
            rw [hcond]; simpa using hmV
          have h2 : (decide (m.id ∉ V)) = false := by simpa using hmV
          simp only [List.filter_cons, h1, h2, if_false]
          exact ihr

/-- The breadth-first termination measure: pending queue entries plus
the connection entries of unvisited nodes; it strictly decreases at
every loop iteration. -/
def bfsMeasure (g : Network) (V : List String) (queue : List String) : ℕ :=
  queue.length + unvisitedConnSum g V

/-- Master lemma for one breadth-first search of
`identifyEmergentPatterns`: with fuel at least the measure, a queue of
ids inside an edge-closed set R of active ids, and visited list
`W ++ V0` whose `W` part lists the pattern entries in reverse visit
order, the search drains the queue, visits some new ids `W2 ⊆ R`
(appending them to the pattern in visit order), and afterwards every
active edge out of a visited `W2 ++ W` node leads to a visited node. -/
theorem bfs_main (g : Network) (thr : ℝ) (R : String → Prop)
    (hnd : (g.nodes.map ConceptNode.id).Nodup)
    (hRact : ∀ i, R i → ActiveId g thr i)
    (hRclosed : ∀ i j, R i → activeEdge g thr i j → R j) :
    ∀ (fuel : ℕ) (queue W V0 : List String) (pat : List TopEntry),
    bfsMeasure g (W ++ V0) queue ≤ fuel →
    (∀ q ∈ queue, R q) →
    (W ++ V0).Nodup →
    (∀ i ∈ W, R i) →
    pat.map TopEntry.id = W.reverse →
    (∀ i ∈ W, ∀ j, activeEdge g thr i j → j ∈ W ++ V0 ∨ j ∈ queue) →
    (∀ e ∈ pat, ∃ n, g.getNode e.id = some n ∧ e = n.toEntry) →
    ∃ W2 pat2,
      g.bfs thr fuel queue (W ++ V0) pat = ((W2 ++ W) ++ V0, pat ++ pat2) ∧
      (pat ++ pat2).map TopEntry.id = (W2 ++ W).reverse ∧
      ((W2 ++ W) ++ V0).Nodup ∧
      (∀ i ∈ W2, R i) ∧
      (∀ i ∈ W2 ++ W, ∀ j, activeEdge g thr i j → j ∈ (W2 ++ W) ++ V0) ∧
      (∀ q ∈ queue, q ∈ (W2 ++ W) ++ V0) ∧
      (∀ e ∈ pat ++ pat2, ∃ n, g.getNode e.id = some n ∧ e = n.toEntry) := by
  intro fuel
  induction fuel with
  | zero =>
      intro queue W V0 pat hfuel hq hndV hW hpat hfront hents
      have hq0 : queue = [] := by
        unfold bfsMeasure at hfuel
        have hlen : queue.length = 0 := by omega
        exact List.length_eq_zero.mp hlen
      subst hq0
      refine ⟨[], [], by simp [Network.bfs], by simpa using hpat, by simpa using hndV,
        ?_, ?_, ?_, by simpa using hents⟩
      · intro i hi; cases hi
      · intro i hi j hedge
        simp only [List.nil_append] at hi ⊢
        rcases hfront i hi j hedge with h | h
        · exact h
        · cases h
      · intro q hq2; cases hq2
  | succ fuel ih =>
      intro queue W V0 pat hfuel hq hndV hW hpat hfront hents
      cases queue with
      | nil =>
          refine ⟨[], [], by simp [Network.bfs], by simpa using hpat, by simpa using hndV,
            ?_, ?_, ?_, by simpa using hents⟩
          · intro i hi; cases hi
          · intro i hi j hedge
            simp only [List.nil_append] at hi ⊢
            rcases hfront i hi j hedge with h | h
            · exact h
            · cases h
          · intro q hq2; cases hq2
      | cons c rest =>
          by_cases hc : c ∈ W ++ V0
          · have hunf : g.bfs thr (fuel + 1) (c :: rest) (W ++ V0) pat
                = g.bfs thr fuel rest (W ++ V0) pat := by
              simp [Network.bfs, hc]
            have hfuel2 : bfsMeasure g (W ++ V0) rest ≤ fuel := by
              unfold bfsMeasure at hfuel ⊢
              simp only [List.length_cons] at hfuel
              omega
            have hfront2 : ∀ i ∈ W, ∀ j, activeEdge g thr i j →
                j ∈ W ++ V0 ∨ j ∈ rest := by
              intro i hi j hedge
              rcases hfront i hi j hedge with h | h
              · exact Or.inl h
              · rcases List.mem_cons.mp h with rfl | h2
                · exact Or.inl hc
                · exact Or.inr h2
            obtain ⟨W2, pat2, h1, h2, h3, h4, h5, h6, h7⟩ :=
              ih rest W V0 pat hfuel2 (fun q hq2 => hq q (List.mem_cons_of_mem c hq2))
                hndV hW hpat hfront2 hents
            refine ⟨W2, pat2, ?_, h2, h3, h4, h5, ?_, h7⟩
            · rw [hunf]; exact h1
            · intro q hq2
              rcases List.mem_cons.mp hq2 with rfl | h8
              · simp only [List.append_assoc, List.mem_append] at hc ⊢
                tauto
              · exact h6 q h8
          · have hRc : R c := hq c (List.mem_cons_self c rest)
            obtain ⟨cn, hcn, hact⟩ := hRact c hRc
            obtain ⟨hcmem, hcid⟩ := getNode_eq_some g c cn hcn
            have hunf : g.bfs thr (fuel + 1) (c :: rest) (W ++ V0) pat
                = g.bfs thr fuel
                    (rest ++ cn.connections.filterMap (fun p =>
                      if p.1 ∈ c :: (W ++ V0) then none
                      else
                        match g.getNode p.1 with
                        | none => none
                        | some m =>
                            if decide (thr ≤ m.activation) then some p.1 else none))
                    (c :: (W ++ V0)) (pat ++ [cn.toEntry]) := by
              simp only [Network.bfs]
              rw [if_neg hc, hcn]
              simp only [decide_eq_true hact, if_true]
            have hsum : unvisitedConnSum g (c :: (W ++ V0)) + cn.connections.length
                = unvisitedConnSum g (W ++ V0) :=
              sumConn_filter_cons (W ++ V0) c g.nodes cn hnd hcmem hcid hc
            have hplen : (cn.connections.filterMap (fun p =>
                if p.1 ∈ c :: (W ++ V0) then none
                else
                  match g.getNode p.1 with
                  | none => none
                  | some m =>
                      if decide (thr ≤ m.activation) then some p.1 else none)).length
                ≤ cn.connections.length := List.length_filterMap_le _ _
            have hfuel2 : bfsMeasure g ((c :: W) ++ V0)
                (rest ++ cn.connections.filterMap (fun p =>
                  if p.1 ∈ c :: (W ++ V0) then none
                  else
                    match g.getNode p.1 with
                    | none => none
                    | some m =>
                        if decide (thr ≤ m.activation) then some p.1 else none)) ≤ fuel := by
              unfold bfsMeasure at hfuel ⊢
              rw [List.cons_append]
              simp only [List.length_cons, List.length_append] at hfuel ⊢
              omega
            have hqR : ∀ q ∈ rest ++ cn.connections.filterMap (fun p =>
                if p.1 ∈ c :: (W ++ V0) then none
                else
                  match g.getNode p.1 with
                  | none => none
                  | some m =>
                      if decide (thr ≤ m.activation) then some p.1 else none), R q := by
              intro q hq2
              rcases List.mem_append.mp hq2 with h | h
              · exact hq q (List.mem_cons_of_mem c h)
              · rcases (mem_bfs_pushes g thr (c :: (W ++ V0)) cn.connections q).mp h with
                  ⟨_, ⟨w, hw⟩, ⟨m, hm, hmact⟩⟩
                exact hRclosed c q hRc ⟨⟨cn, hcn, hact, ⟨w, hw⟩⟩, ⟨m, hm, hmact⟩⟩
            have hndV2 : ((c :: W) ++ V0).Nodup := by
              rw [List.cons_append]
              exact List.nodup_cons.mpr ⟨hc, hndV⟩
            have hW2 : ∀ i ∈ c :: W, R i := by
              intro i hi
              rcases List.mem_cons.mp hi with rfl | h
              · exact hRc
              · exact hW i h
            have hentryid : cn.toEntry.id = c := hcid
            have hpat2 : (pat ++ [cn.toEntry]).map TopEntry.id = (c :: W).reverse := by
              rw [List.map_append, hpat, List.reverse_cons]
              simp [hentryid]
            have hfront2 : ∀ i ∈ c :: W, ∀ j, activeEdge g thr i j →
                j ∈ (c :: W) ++ V0 ∨ j ∈ rest ++ cn.connections.filterMap (fun p =>
                  if p.1 ∈ c :: (W ++ V0) then none
                  else
                    match g.getNode p.1 with
                    | none => none
                    | some m =>
                        if decide (thr ≤ m.activation) then some p.1 else none) := by
              intro i hi j hedge
              rw [List.cons_append]
              rcases List.mem_cons.mp hi with hic | hiW
              · rw [hic] at hedge
                by_cases hjv : j ∈ c :: (W ++ V0)
                · exact Or.inl hjv
                · rcases hedge with ⟨⟨n2, hn2, _, ⟨w, hw⟩⟩, hActj⟩
                  have hn2cn : n2 = cn := by
                    rw [hcn] at hn2
                    exact (Option.some_injective _ hn2).symm
                  subst hn2cn
                  refine Or.inr (List.mem_append_right _ ?_)
                  exact (mem_bfs_pushes g thr (c :: (W ++ V0)) n2.connections j).mpr
                    ⟨hjv, ⟨w, hw⟩, hActj⟩
              · rcases hfront i hiW j hedge with h | h
                · exact Or.inl (List.mem_cons_of_mem c h)
                · rcases List.mem_cons.mp h with rfl | h2
                  · exact Or.inl (List.mem_cons_self j _)
                  · exact Or.inr (List.mem_append_left _ h2)
            have hents2 : ∀ e ∈ pat ++ [cn.toEntry],
                ∃ n, g.getNode e.id = some n ∧ e = n.toEntry := by
              intro e he
              rcases List.mem_append.mp he with h | h
              · exact hents e h
              · rcases List.mem_singleton.mp h with rfl
                exact ⟨cn, by rw [hentryid]; exact hcn, rfl⟩
            obtain ⟨W2, pat2, ih1, ih2, ih3, ih4, ih5, ih6, ih7⟩ :=
              ih _ (c :: W) V0 (pat ++ [cn.toEntry]) hfuel2 hqR hndV2 hW2 hpat2
                hfront2 hents2
            have hconv : (W2 ++ [c]) ++ W = W2 ++ c :: W := by simp
            refine ⟨W2 ++ [c], [cn.toEntry] ++ pat2, ?_, ?_, ?_, ?_, ?_, ?_, ?_⟩
            · rw [hunf]
              rw [List.cons_append] at ih1
              rw [ih1, hconv]
              simp
            · rw [hconv, ← List.append_assoc]
              exact ih2
            · rw [hconv]; exact ih3
            · intro i hi
              rcases List.mem_append.mp hi with h | h
              · exact ih4 i h
              · rcases List.mem_singleton.mp h with rfl
                exact hRc
            · intro i hi j hedge
              rw [hconv] at hi ⊢
              exact ih5 i hi j hedge
            · intro q hq2
              rw [hconv]
              rcases List.mem_cons.mp hq2 with rfl | h8
              · simp
              · exact ih6 q (List.mem_append_left _ h8)
            · rw [← List.append_assoc]
              exact ih7

/-- With unique ids, looking up the id of a member node returns that
node. -/
theorem getNode_of_mem (g : Network) (hnd : (g.nodes.map ConceptNode.id).Nodup) :
    ∀ n ∈ g.nodes, g.getNode n.id = some n := by
  unfold Network.getNode
  have h : ∀ (l : List ConceptNode), (l.map ConceptNode.id).Nodup →
      ∀ n ∈ l, l.find? (fun m => m.id = n.id) = some n := by
    intro l
    induction l with
    | nil => intro _ n hn; cases hn
    | cons m l ih =>
        intro hnd2 n hn
        rw [List.map_cons] at hnd2
        rcases List.nodup_cons.mp hnd2 with ⟨hmid, hlnd⟩
        rcases List.mem_cons.mp hn with rfl | hn2
        · rw [List.find?_cons_of_pos _ (by simp)]
        · have hne : ¬ m.id = n.id := by
            intro he
            exact hmid (by rw [he]; exact List.mem_map_of_mem ConceptNode.id hn2)
          rw [List.find?_cons_of_neg _ (by simpa using hne)]
          exact ih hlnd n hn2
  exact h g.nodes hnd

/-- Once the queue is drained with the frontier property, everything
reachable from a seed already inside the visited set, avoiding a
reach-disjoint remainder, lies in the fresh part of the visited set. -/
theorem reach_subset_visited (g : Network) (thr : ℝ) (s : String)
    (W2 V0 : List String)
    (hdisj : ∀ i ∈ V0, ¬ ReachAct g thr s i)
    (hsW : s ∈ W2 ++ V0)
    (hfront : ∀ i ∈ W2, ∀ j, activeEdge g thr i j → j ∈ W2 ++ V0) :
    ∀ t, ReachAct g thr s t → t ∈ W2 := by
  intro t ht
  induction ht with
  | refl =>
      rcases List.mem_append.mp hsW with h | h
      · exact h
      · exact absurd Relation.ReflTransGen.refl (hdisj s h)
  | tail hpre hstep ih =>
      rename_i b c
      have hc : c ∈ W2 ++ V0 := hfront b ih c hstep
      rcases List.mem_append.mp hc with h | h
      · exact h
      · exact absurd (Relation.ReflTransGen.tail hpre hstep) (hdisj c h)

/-- Everything reachable from a member of an edge-closed component
stays in the component. -/
theorem reach_in_closed (g : Network) (thr : ℝ) (C : Finset String)
    (hclosed : ∀ i ∈ C, ∀ j, activeEdge g thr i j → j ∈ C)
    (s : String) (hs : s ∈ C) : ∀ t, ReachAct g thr s t → t ∈ C := by
  intro t ht
  induction ht with
  | refl => exact hs
  | tail hpre hstep ih =>
      rename_i b c
      exact hclosed b ih c hstep

/-- The sufficient fuel bound holds at every seed. -/
theorem bfsFuel_sufficient (g : Network) (V : List String) (s : String) :
    bfsMeasure g V [s] ≤ g.bfsFuel := by
  unfold bfsMeasure Network.bfsFuel
  have := unvisitedConnSum_le_total g V
  simp only [List.length_singleton]
  omega

/-- Partition behaviour of the outer loop of
`identifyEmergentPatterns`: the produced patterns append to the
accumulator, their member ids are fresh, distinct, active, cover every
listed node, and each pattern is a nonempty reachability-connected
cluster whose average is the arithmetic mean. -/
theorem patternsLoop_partition (g : Network) (thr : ℝ)
    (hnd : (g.nodes.map ConceptNode.id).Nodup) :
    ∀ (ns : List ConceptNode) (V : List String) (acc : List Pattern),
    (∀ n ∈ ns, n ∈ g.nodes ∧ thr ≤ n.activation) →
    V.Nodup →
    ∃ Δ VD,
      g.patternsLoop thr g.bfsFuel ns V acc = acc ++ Δ ∧
      (Δ.map (fun p => p.concepts.map TopEntry.id)).flatten = VD ∧
      VD.Nodup ∧
      (∀ i ∈ VD, i ∉ V) ∧
      (∀ i ∈ VD, ActiveId g thr i) ∧
      (∀ n ∈ ns, n.id ∈ VD ∨ n.id ∈ V) ∧
      (∀ p ∈ Δ, p.concepts ≠ [] ∧
        p.averageActivation =
          (p.concepts.map TopEntry.activation).sum / p.concepts.length ∧
        (p.concepts.map TopEntry.id).Nodup ∧
        (∃ s, ActiveId g thr s ∧
          ∀ i ∈ p.concepts.map TopEntry.id, ReachAct g thr s i) ∧
        (∀ e ∈ p.concepts, ∃ n, g.getNode e.id = some n ∧ e = n.toEntry)) := by
  intro ns
  induction ns with
  | nil =>
      intro V acc _ _
      refine ⟨[], [], by simp [Network.patternsLoop], rfl, List.nodup_nil, ?_, ?_, ?_, ?_⟩
      · intro i hi; cases hi
      · intro i hi; cases hi
      · intro n hn; cases hn
      · intro p hp; cases hp
  | cons n ns ih =>
      intro V acc hact hndV
      have hactn := hact n (List.mem_cons_self n ns)
      have hactns : ∀ m ∈ ns, m ∈ g.nodes ∧ thr ≤ m.activation :=
        fun m hm => hact m (List.mem_cons_of_mem n hm)
      by_cases hv : n.id ∈ V
      · have hunf : g.patternsLoop thr g.bfsFuel (n :: ns) V acc
            = g.patternsLoop thr g.bfsFuel ns V acc := by
          simp [Network.patternsLoop, hv]
        obtain ⟨Δ, VD, c1, c2, c3, c4, c5, c6, c7⟩ := ih V acc hactns hndV
        refine ⟨Δ, VD, by rw [hunf]; exact c1, c2, c3, c4, c5, ?_, c7⟩
        intro m hm
        rcases List.mem_cons.mp hm with rfl | hm2
        · exact Or.inr hv
        · exact c6 m hm2
      · have hAct : ActiveId g thr n.id :=
          ⟨n, getNode_of_mem g hnd n hactn.1, hactn.2⟩
        obtain ⟨W2, pat2, b1, b2, b3, b4, b5, b6, b7⟩ :=
          bfs_main g thr (ReachAct g thr n.id) hnd
            (fun i hi => reachAct_active g thr hAct hi)
            (fun i j hi hij => Relation.ReflTransGen.tail hi hij)
            g.bfsFuel [n.id] [] V []
            (by simpa using bfsFuel_sufficient g V n.id)
            (by intro q hq; rcases List.mem_singleton.mp hq with rfl;
                exact Relation.ReflTransGen.refl)
            (by simpa using hndV)
            (by intro i hi; cases hi)
            rfl
            (by intro i hi; cases hi)
            (by intro e he; cases he)
        simp only [List.append_nil, List.nil_append] at b1 b2 b3 b5 b6 b7
        have hnW2 : n.id ∈ W2 := by
          have := b6 n.id (List.mem_singleton_self n.id)
          rcases List.mem_append.mp this with h | h
          · exact h
          · exact absurd h hv
        have hpat2ne : 0 < pat2.length := by
          by_contra hle
          have : pat2 = [] := by
            cases pat2 with
            | nil => rfl
            | cons a l => simp at hle
          rw [this] at b2
          have : W2.reverse = [] := b2.symm
          have hW2nil : W2 = [] := by simpa using this
          rw [hW2nil] at hnW2
          cases hnW2
        have hunf : g.patternsLoop thr g.bfsFuel (n :: ns) V acc
            = g.patternsLoop thr g.bfsFuel ns (W2 ++ V) (acc ++ [mkPattern pat2]) := by
          simp only [Network.patternsLoop, hv, if_neg, if_false]
          rw [show (g.bfs thr g.bfsFuel [n.id] V []) = (W2 ++ V, pat2) from b1]
          simp [hpat2ne]
        have hndV2 : (W2 ++ V).Nodup := b3
        obtain ⟨Δ, VD, c1, c2, c3, c4, c5, c6, c7⟩ :=
          ih (W2 ++ V) (acc ++ [mkPattern pat2]) hactns hndV2
        have hW2nd : W2.Nodup := (List.nodup_append.mp b3).1
        have hW2V : ∀ i ∈ W2, i ∉ V := by
          intro i hi hiv
          exact (List.nodup_append.mp b3).2.2 hi hiv
        refine ⟨[mkPattern pat2] ++ Δ, W2.reverse ++ VD, ?_, ?_, ?_, ?_, ?_, ?_, ?_⟩
        · rw [hunf, c1, List.append_assoc]
        · simp only [List.map_cons, List.flatten_cons, List.singleton_append]
          rw [c2]
          have : (mkPattern pat2).concepts.map TopEntry.id = W2.reverse := b2
          rw [this]
        · rw [List.nodup_append]
          refine ⟨List.nodup_reverse.mpr hW2nd, c3, ?_⟩
          intro i hi hivd
          have := c4 i hivd
          exact this (List.mem_append_left _ (List.mem_reverse.mp hi))
        · intro i hi
          rcases List.mem_append.mp hi with h | h
          · exact hW2V i (List.mem_reverse.mp h)
          · intro hiv
            exact c4 i h (List.mem_append_right _ hiv)
        · intro i hi
          rcases List.mem_append.mp hi with h | h
          · exact reachAct_active g thr hAct (b4 i (List.mem_reverse.mp h))
          · exact c5 i h
        · intro m hm
          rcases List.mem_cons.mp hm with rfl | hm2
          · exact Or.inl (List.mem_append_left _ (List.mem_reverse.mpr hnW2))
          · rcases c6 m hm2 with h | h
            · exact Or.inl (List.mem_append_right _ h)
            · rcases List.mem_append.mp h with h2 | h2
              · exact Or.inl (List.mem_append_left _ (List.mem_reverse.mpr h2))
              · exact Or.inr h2
        · intro p hp
          rcases List.mem_append.mp hp with h | h
          · rcases List.mem_singleton.mp h with rfl
            refine ⟨?_, rfl, ?_, ?_, ?_⟩
            · intro hnil
              rw [show (mkPattern pat2).concepts = pat2 from rfl] at hnil
              rw [hnil] at hpat2ne
              cases hpat2ne
            · rw [show (mkPattern pat2).concepts.map TopEntry.id = W2.reverse from b2]
              exact List.nodup_reverse.mpr hW2nd
            · refine ⟨n.id, hAct, ?_⟩
              intro i hi
              rw [show (mkPattern pat2).concepts.map TopEntry.id = W2.reverse from b2]
                at hi
              exact b4 i (List.mem_reverse.mp hi)
            · exact b7
          · exact c7 p h

/-- Component behaviour of the outer loop: when the active ids split
into pairwise-disjoint, edge-closed, mutually-reachable components Cs,
every breadth-first search fills exactly one still-missing component,
so the produced patterns biject with the unseeded components. -/
theorem patternsLoop_components (g : Network) (thr : ℝ)
    (hnd : (g.nodes.map ConceptNode.id).Nodup) (Cs : List (Finset String))
    (hcover : ∀ i, ActiveId g thr i ↔ ∃ C ∈ Cs, i ∈ C)
    (hdisj : Cs.Pairwise Disjoint)
    (hclosed : ∀ C ∈ Cs, ∀ i ∈ C, ∀ j, activeEdge g thr i j → j ∈ C)
    (hmutual : ∀ C ∈ Cs, ∀ i ∈ C, ∀ j ∈ C, ReachAct g thr i j) :
    ∀ (ns : List ConceptNode) (V : List String) (acc : List Pattern)
      (Ds : List (Finset String)),
    (∀ n ∈ ns, n ∈ g.nodes ∧ thr ≤ n.activation) →
    V.Nodup →
    (∀ i, i ∈ V ↔ ∃ D ∈ Ds, i ∈ D) →
    (∀ D ∈ Ds, D ∈ Cs) →
    Ds.Nodup →
    ∃ Dsf,
      (g.patternsLoop thr g.bfsFuel ns V acc).map
          (fun p => (p.concepts.map TopEntry.id).toFinset)
        = acc.map (fun p => (p.concepts.map TopEntry.id).toFinset) ++ Dsf ∧
      (Ds ++ Dsf).Nodup ∧
      (∀ D ∈ Dsf, D ∈ Cs) ∧
      (∀ n ∈ ns, ∃ D, D ∈ Ds ++ Dsf ∧ n.id ∈ D) := by
  intro ns
  induction ns with
  | nil =>
      intro V acc Ds _ _ _ _ hDsnd
      refine ⟨[], by simp [Network.patternsLoop], by simpa using hDsnd, ?_, ?_⟩
      · intro D hD; cases hD
      · intro n hn; cases hn
  | cons n ns ih =>
      intro V acc Ds hact hndV hVDs hDsCs hDsnd
      have hactn := hact n (List.mem_cons_self n ns)
      have hactns : ∀ m ∈ ns, m ∈ g.nodes ∧ thr ≤ m.activation :=
        fun m hm => hact m (List.mem_cons_of_mem n hm)
      by_cases hv : n.id ∈ V
      · have hunf : g.patternsLoop thr g.bfsFuel (n :: ns) V acc
            = g.patternsLoop thr g.bfsFuel ns V acc := by
          simp [Network.patternsLoop, hv]
        obtain ⟨Dsf, d1, d2, d3, d4⟩ := ih V acc Ds hactns hndV hVDs hDsCs hDsnd
        refine ⟨Dsf, by rw [hunf]; exact d1, d2, d3, ?_⟩
        intro m hm
        rcases List.mem_cons.mp hm with rfl | hm2
        · obtain ⟨D, hD, hmD⟩ := (hVDs m.id).mp hv
          exact ⟨D, List.mem_append_left _ hD, hmD⟩
        · exact d4 m hm2
      · have hAct : ActiveId g thr n.id :=
          ⟨n, getNode_of_mem g hnd n hactn.1, hactn.2⟩
        obtain ⟨C, hCmem, hnC⟩ := (hcover n.id).mp hAct
        have hRC : ∀ t, ReachAct g thr n.id t → t ∈ C :=
          reach_in_closed g thr C (hclosed C hCmem) n.id hnC
        obtain ⟨W2, pat2, b1, b2, b3, b4, b5, b6, b7⟩ :=
          bfs_main g thr (ReachAct g thr n.id) hnd
            (fun i hi => reachAct_active g thr hAct hi)
            (fun i j hi hij => Relation.ReflTransGen.tail hi hij)
            g.bfsFuel [n.id] [] V []
            (by simpa using bfsFuel_sufficient g V n.id)
            (by intro q hq; rcases List.mem_singleton.mp hq with rfl;
                exact Relation.ReflTransGen.refl)
            (by simpa using hndV)
            (by intro i hi; cases hi)
            rfl
            (by intro i hi; cases hi)
            (by intro e he; cases he)
        simp only [List.append_nil, List.nil_append] at b1 b2 b3 b5 b6 b7
        have hnW2 : n.id ∈ W2 := by
          have := b6 n.id (List.mem_singleton_self n.id)
          rcases List.mem_append.mp this with h | h
          · exact h
          · exact absurd h hv
        have hdisjV : ∀ i ∈ V, ¬ ReachAct g thr n.id i := by
          intro i hiv hri
          obtain ⟨D, hD, hiD⟩ := (hVDs i).mp hiv
          have hiC : i ∈ C := hRC i hri
          have hDC : D = C := by
            by_contra hne
            have hdij : Disjoint D C :=
              List.Pairwise.forall (fun x y (h : Disjoint x y) => h.symm) hdisj
                (hDsCs D hD) hCmem hne
            exact (Finset.disjoint_left.mp hdij) hiD hiC
          subst hDC
          exact hv ((hVDs n.id).mpr ⟨D, hD, hnC⟩)
        have hcomp : ∀ t, ReachAct g thr n.id t → t ∈ W2 :=
          reach_subset_visited g thr n.id W2 V hdisjV
            (b6 n.id (List.mem_singleton_self n.id)) b5
        have hW2C : ∀ i, i ∈ W2 ↔ i ∈ C := by
          intro i
          constructor
          · intro h; exact hRC i (b4 i h)
          · intro h; exact hcomp i (hmutual C hCmem n.id hnC i h)
        have hpat2ne : 0 < pat2.length := by
          by_contra hle
          have hp2 : pat2 = [] := by
            cases pat2 with
            | nil => rfl
            | cons a l => simp at hle
          rw [hp2] at b2
          have hW2nil : W2 = [] := by simpa using b2.symm
          rw [hW2nil] at hnW2
          cases hnW2
        have hfinset : ((mkPattern pat2).concepts.map TopEntry.id).toFinset = C := by
          apply Finset.ext
          intro i
          rw [List.mem_toFinset,
            show (mkPattern pat2).concepts.map TopEntry.id = W2.reverse from b2,
            List.mem_reverse]
          exact hW2C i
        have hCnotin : C ∉ Ds := by
          intro hin
          exact hv ((hVDs n.id).mpr ⟨C, hin, hnC⟩)
        have hunf : g.patternsLoop thr g.bfsFuel (n :: ns) V acc
            = g.patternsLoop thr g.bfsFuel ns (W2 ++ V) (acc ++ [mkPattern pat2]) := by
          simp only [Network.patternsLoop, hv, if_neg, if_false]
          rw [show (g.bfs thr g.bfsFuel [n.id] V []) = (W2 ++ V, pat2) from b1]
          simp [hpat2ne]
        have hVDs2 : ∀ i, i ∈ W2 ++ V ↔ ∃ D ∈ Ds ++ [C], i ∈ D := by
          intro i
          constructor
          · intro h
            rcases List.mem_append.mp h with h2 | h2
            · exact ⟨C, List.mem_append_right _ (List.mem_singleton_self C),
                (hW2C i).mp h2⟩
            · obtain ⟨D, hD, hiD⟩ := (hVDs i).mp h2
              exact ⟨D, List.mem_append_left _ hD, hiD⟩
          · rintro ⟨D, hD, hiD⟩
            rcases List.mem_append.mp hD with h2 | h2
            · exact List.mem_append_right _ ((hVDs i).mpr ⟨D, h2, hiD⟩)
            · rcases List.mem_singleton.mp h2 with rfl
              exact List.mem_append_left _ ((hW2C i).mpr hiD)
        have hDsCs2 : ∀ D ∈ Ds ++ [C], D ∈ Cs := by
          intro D hD
          rcases List.mem_append.mp hD with h | h
          · exact hDsCs D h
          · rcases List.mem_singleton.mp h with rfl
            exact hCmem
        have hDsnd2 : (Ds ++ [C]).Nodup := by
          rw [List.nodup_append]
          refine ⟨hDsnd, List.nodup_singleton C, ?_⟩
          intro D hD hDc
          rcases List.mem_singleton.mp hDc with rfl
          exact hCnotin hD
        obtain ⟨Dsf, d1, d2, d3, d4⟩ :=
          ih (W2 ++ V) (acc ++ [mkPattern pat2]) (Ds ++ [C]) hactns b3 hVDs2
            hDsCs2 hDsnd2
        refine ⟨[C] ++ Dsf, ?_, ?_, ?_, ?_⟩
        · rw [hunf, d1, List.map_append]
          simp only [List.map_singleton, hfinset]
          rw [List.append_assoc]
        · rw [← List.append_assoc]
          exact d2
        · intro D hD
          rcases List.mem_append.mp hD with h | h
          · rcases List.mem_singleton.mp h with rfl
            exact hCmem
          · exact d3 D h
        · intro m hm
          rcases List.mem_cons.mp hm with rfl | hm2
          · exact ⟨C, List.mem_append_right _ (List.mem_append_left _
              (List.mem_singleton_self C)), hnC⟩
          · obtain ⟨D, hD, hmD⟩ := d4 m hm2
            rw [← List.append_assoc]
            exact ⟨D, hD, hmD⟩

theorem mem_activeNodes (g : Network) (thr : ℝ) (n : ConceptNode) :
    n ∈ g.activeNodes thr ↔ n ∈ g.nodes ∧ thr ≤ n.activation := by
  simp [Network.activeNodes, List.mem_filter]

theorem activeNodes_ids_nodup (g : Network) (thr : ℝ)
    (hnd : (g.nodes.map ConceptNode.id).Nodup) :
    ((g.activeNodes thr).map ConceptNode.id).Nodup :=
  hnd.sublist ((List.filter_sublist g.nodes).map ConceptNode.id)

theorem activeId_iff_mem (g : Network) (thr : ℝ)
    (hnd : (g.nodes.map ConceptNode.id).Nodup) (i : String) :
    ActiveId g thr i ↔ i ∈ (g.activeNodes thr).map ConceptNode.id := by
  constructor
  · rintro ⟨n, hgn, hact⟩
    obtain ⟨hmem, hid⟩ := getNode_eq_some g i n hgn
    rw [← hid]
    exact List.mem_map_of_mem ConceptNode.id ((mem_activeNodes g thr n).mpr ⟨hmem, hact⟩)
  · intro h
    obtain ⟨n, hn, hid⟩ := List.mem_map.mp h
    obtain ⟨hmem, hact⟩ := (mem_activeNodes g thr n).mp hn
    exact ⟨n, by rw [← hid]; exact getNode_of_mem g hnd n hmem, hact⟩

theorem eq_singleton_of_all_eq {l : List String} {a : String}
    (hnd : l.Nodup) (ha : a ∈ l) (hall : ∀ x ∈ l, x = a) : l = [a] := by
  cases l with
  | nil => cases ha
  | cons b bs =>
      have hb : b = a := hall b (List.mem_cons_self b bs)
      subst hb
      cases bs with
      | nil => rfl
      | cons c cs =>
          have hc : c = b := hall c (by simp)
          rcases List.nodup_cons.mp hnd with ⟨hnb, _⟩
          exact absurd (by simp [hc]) hnb

theorem nodup_of_pairwise_disjoint {Cs : List (Finset String)}
    (hdisj : Cs.Pairwise Disjoint) (hne : ∀ C ∈ Cs, C.Nonempty) : Cs.Nodup := by
  apply List.Pairwise.imp_of_mem ?_ hdisj
  intro a b ha _ hab
  intro heq
  subst heq
  rcases hne a ha with ⟨x, hx⟩
  exact absurd hx (Finset.disjoint_left.mp hab hx)

/-- C9 amended: `identifyEmergentPatterns` partitions the active nodes
into patterns along reachability over active-to-active outgoing edges.
(1) No active node gives an empty list; (2) patterns are sorted
descending by averageActivation; (3) the pattern members are exactly
the active nodes, each in exactly one pattern; (4) each pattern is a
nonempty cluster whose averageActivation is the arithmetic mean of its
member activations; (5) when the active ids split into
pairwise-disjoint, nonempty, edge-closed and mutually-reachable
components, the returned patterns are exactly those components (so two
such components yield exactly two patterns, each containing exactly
one component); (6) an active node with no active-to-active edge in
either direction forms a singleton pattern. -/
theorem identifyEmergentPatterns_spec (g : Network) (thr : Option ℝ) (thrE : ℝ)
    (hthr : thr.getD g.params.activationThreshold = thrE)
    (hnd : (g.nodes.map ConceptNode.id).Nodup) :
    (g.activeNodes thrE = [] → g.identifyEmergentPatterns thr = []) ∧
    List.Pairwise (fun p q => q.averageActivation ≤ p.averageActivation)
      (g.identifyEmergentPatterns thr) ∧
    (((g.identifyEmergentPatterns thr).map
        (fun p => p.concepts.map TopEntry.id)).flatten).Perm
      ((g.activeNodes thrE).map ConceptNode.id) ∧
    (∀ p ∈ g.identifyEmergentPatterns thr, p.concepts ≠ [] ∧
      p.averageActivation =
        (p.concepts.map TopEntry.activation).sum / p.concepts.length) ∧
    (∀ Cs : List (Finset String),
      (∀ i, ActiveId g thrE i ↔ ∃ C ∈ Cs, i ∈ C) →
      Cs.Pairwise Disjoint →
      (∀ C ∈ Cs, C.Nonempty) →
      (∀ C ∈ Cs, ∀ i ∈ C, ∀ j, activeEdge g thrE i j → j ∈ C) →
      (∀ C ∈ Cs, ∀ i ∈ C, ∀ j ∈ C, ReachAct g thrE i j) →
      ((g.identifyEmergentPatterns thr).map
        (fun p => (p.concepts.map TopEntry.id).toFinset)).Perm Cs) ∧
    (∀ x, ActiveId g thrE x → (∀ j, ¬ activeEdge g thrE x j) →
      (∀ j, ¬ activeEdge g thrE j x) →
      ∃ p ∈ g.identifyEmergentPatterns thr,
        p.concepts.map TopEntry.id = [x]) := by
  subst hthr
  have hloopeq : g.identifyEmergentPatterns thr
      = stableSortDescBy Pattern.averageActivation
          (g.patternsLoop (thr.getD g.params.activationThreshold) g.bfsFuel
            (g.activeNodes (thr.getD g.params.activationThreshold)) [] []) := rfl
  obtain ⟨Δ, VD, c1, c2, c3, c4, c5, c6, c7⟩ :=
    patternsLoop_partition g (thr.getD g.params.activationThreshold) hnd
      (g.activeNodes (thr.getD g.params.activationThreshold)) [] []
      (fun n hn => (mem_activeNodes g _ n).mp hn) List.nodup_nil
  simp only [List.nil_append] at c1
  have hsortperm : g.identifyEmergentPatterns thr |>.Perm Δ := by
    rw [hloopeq, c1]
    exact stableSortDescBy_perm _ _
  have hVDiff : ∀ i, i ∈ VD ↔
      i ∈ (g.activeNodes (thr.getD g.params.activationThreshold)).map ConceptNode.id := by
    intro i
    constructor
    · intro h
      exact (activeId_iff_mem g _ hnd i).mp (c5 i h)
    · intro h
      obtain ⟨n, hn, hid⟩ := List.mem_map.mp h
      rcases c6 n hn with h2 | h2
      · rw [← hid]; exact h2
      · cases h2
  refine ⟨?_, ?_, ?_, ?_, ?_, ?_⟩
  · intro h
    rw [hloopeq, h]
    simp [Network.patternsLoop, stableSortDescBy]
  · rw [hloopeq]
    exact stableSortDescBy_sorted _ _
  · have h1 : ((g.identifyEmergentPatterns thr).map
        (fun p => p.concepts.map TopEntry.id)).flatten.Perm
        ((Δ.map (fun p => p.concepts.map TopEntry.id)).flatten) :=
      (hsortperm.map _).flatten
    rw [c2] at h1
    refine h1.trans ?_
    rw [List.perm_ext_iff_of_nodup c3 (activeNodes_ids_nodup g _ hnd)]
    exact hVDiff
  · intro p hp
    have hpΔ : p ∈ Δ := hsortperm.mem_iff.mp hp
    obtain ⟨h1, h2, _, _, _⟩ := c7 p hpΔ
    exact ⟨h1, h2⟩
  · intro Cs hcov hdi hne hcl hmu
    obtain ⟨Dsf, d1, d2, d3, d4⟩ :=
      patternsLoop_components g (thr.getD g.params.activationThreshold) hnd Cs
        hcov hdi hcl hmu
        (g.activeNodes (thr.getD g.params.activationThreshold)) [] [] []
        (fun n hn => (mem_activeNodes g _ n).mp hn) List.nodup_nil
        (by intro i; simp) (by intro D hD; cases hD) List.nodup_nil
    simp only [List.map_nil, List.nil_append] at d1 d2 d4
    rw [c1] at d1
    have hmap : ((g.identifyEmergentPatterns thr).map
        (fun p => (p.concepts.map TopEntry.id).toFinset)).Perm Dsf := by
      rw [← d1]
      exact hsortperm.map _
    refine hmap.trans ?_
    rw [List.perm_ext_iff_of_nodup d2 (nodup_of_pairwise_disjoint hdi hne)]
    intro C
    constructor
    · intro h
      exact d3 C h
    · intro hC
      obtain ⟨x, hx⟩ := hne C hC
      have hxact : ActiveId g (thr.getD g.params.activationThreshold) x :=
        (hcov x).mpr ⟨C, hC, hx⟩
      obtain ⟨n, hn, hid⟩ := List.mem_map.mp ((activeId_iff_mem g _ hnd x).mp hxact)
      obtain ⟨D, hD, hxD⟩ := d4 n hn
      rw [hid] at hxD
      have hDC : D = C := by
        by_contra hne2
        have hdij : Disjoint D C :=
          List.Pairwise.forall (fun a b (h : Disjoint a b) => h.symm) hdi
            (d3 D hD) hC hne2
        exact (Finset.disjoint_left.mp hdij) hxD hx
      rw [← hDC]
      exact hD
  · intro x hx hout hin
    have hxVD : x ∈ VD :=
      (hVDiff x).mpr ((activeId_iff_mem g _ hnd x).mp hx)
    rw [← c2] at hxVD
    obtain ⟨l, hl, hxl⟩ := List.mem_flatten.mp hxVD
    obtain ⟨p, hpΔ, hfp⟩ := List.mem_map.mp hl
    obtain ⟨_, _, hndids, ⟨s, _, hreach⟩, _⟩ := c7 p hpΔ
    have hxp : x ∈ p.concepts.map TopEntry.id := by rw [hfp]; exact hxl
    have hsx : s = x := by
      have hr := hreach x hxp
      rcases Relation.ReflTransGen.cases_tail hr with h | ⟨c, _, hc2⟩
      · exact h.symm
      · exact absurd hc2 (hin c)
    have hall : ∀ i ∈ p.concepts.map TopEntry.id, i = x := by
      intro i hi
      have hr := hreach i hi
      rw [hsx] at hr
      rcases Relation.ReflTransGen.cases_head hr with h | ⟨c, hc1, _⟩
      · exact h.symm
      · exact absurd hc1 (hout c)
    exact ⟨p, hsortperm.mem_iff.mpr hpΔ, eq_singleton_of_all_eq hndids hxp hall⟩

def c9M : ConceptNode :=
  { id := "m", label := "concept m", category := none,
    connections := [("x", 0.9)], activation := 1, prevActivation := 0, metadata := [] }

def c9X : ConceptNode :=
  { id := "x", label := "concept x", category := none,
    connections := [], activation := 1, prevActivation := 0, metadata := [] }

/-- Two active nodes joined by the single one-way edge m to x. -/
def c9Net : Network :=
  { nodes := [c9M, c9X], activationHistory := [], iterationCount := 0,
    params := defaultParams }

/-- Counterexample to C9: in the graph with the one-way active edge m
to x, the active node x reaches no other active node, yet the run
returns the single pattern [m, x] and no singleton pattern for x — the
claimed singleton guarantee fails for a node another active node
points at. -/
theorem c9Net_getNode_m : c9Net.getNode "m" = some c9M := by
  simp [Network.getNode, c9Net, List.find?, c9M, c9X]

theorem c9Net_getNode_x : c9Net.getNode "x" = some c9X := by
  simp [Network.getNode, c9Net, List.find?, c9M, c9X]

theorem c9Net_activeNodes : c9Net.activeNodes 0.5 = [c9M, c9X] := by
  have h : (decide ((0.5:ℝ) ≤ 1)) = true := decide_eq_true (by norm_num)
  simp [Network.activeNodes, c9Net, List.filter, c9M, c9X, h]

theorem c9Net_bfsFuel : c9Net.bfsFuel = 4 := by
  simp [Network.bfsFuel, c9Net, c9M, c9X]

theorem patterns_counterexample :
    ((c9Net.identifyEmergentPatterns (some 0.5)).map
        (fun p => p.concepts.map TopEntry.id)) = [["m", "x"]] ∧
    (∀ j, ¬ activeEdge c9Net 0.5 "x" j) ∧
    ¬ (∃ p ∈ c9Net.identifyEmergentPatterns (some 0.5),
        p.concepts.map TopEntry.id = ["x"]) := by
  have hmap : ((c9Net.identifyEmergentPatterns (some 0.5)).map
      (fun p => p.concepts.map TopEntry.id)) = [["m", "x"]] := by
    have h : (decide ((0.5:ℝ) ≤ 1)) = true := decide_eq_true (by norm_num)
    have hle : (0.5:ℝ) ≤ 1 := by norm_num
    have hm : c9M.activation = 1 := rfl
    have hx2 : c9X.activation = 1 := rfl
    simp only [Network.identifyEmergentPatterns, Option.getD_some]
    simp [Network.patternsLoop, Network.bfs, c9Net_activeNodes, c9Net_bfsFuel,
      c9Net_getNode_m, c9Net_getNode_x, stableSortDescBy, insertDescBy, mkPattern,
      ConceptNode.toEntry, List.filterMap_cons, List.filterMap_nil, h, hle, hm, hx2,
      show c9M.id = "m" from rfl, show c9X.id = "x" from rfl,
      show c9M.connections = [("x", 0.9)] from rfl,
      show c9X.connections = [] from rfl,
      show c9M.label = "concept m" from rfl, show c9X.label = "concept x" from rfl,
      show c9M.category = none from rfl, show c9X.category = none from rfl]
  refine ⟨hmap, ?_, ?_⟩
  · rintro j ⟨⟨n, hn, _, ⟨w, hw⟩⟩, _⟩
    have hx : c9Net.getNode "x" = some c9X := by
      simp [Network.getNode, c9Net, c9M, c9X, List.find?]
    rw [hx] at hn
    have : n = c9X := (Option.some_injective _ hn).symm
    subst this
    simp [c9X] at hw
  · rintro ⟨p, hp, hids⟩
    have h1 := List.mem_map_of_mem (fun p => p.concepts.map TopEntry.id) hp
    rw [hmap] at h1
    have h2 : p.concepts.map TopEntry.id ∈ [["m", "x"]] := h1
    rw [hids] at h2
    simp at h2

/-- Witness for C9 amended: the empty network yields no pattern. -/
theorem identifyEmergentPatterns_spec_witness :
    Network.empty.identifyEmergentPatterns none = [] :=
  (identifyEmergentPatterns_spec Network.empty none 0.7 rfl
    (by simp [Network.empty])).1 rfl

end CanMcp
